import Mathlib

/-!
Verification development for the `runnable-to-core` scheduling engine.

The definitions below are a shallow embedding of `src/backend/main_scheduler.py`.
Python integers are modelled as `Int`, Python dictionaries as association lists
(first binding wins, updates replace in place), Python `float("inf")` sentinels
as `Option Int` with `none` standing for plus infinity, and Python `list.remove`
as `List.erase` (the source never removes an absent element on the inputs the
theorems quantify over).  The only idealisation is `calculate_min_core_count`,
where the source computes with IEEE-754 doubles and the embedding uses exact
rationals; this is flagged at the definition.
-/

namespace RunnableToCore

/-- Properties of one runnable, mirroring the per-name dictionaries of the
source: `type`, `execution_time`, optional `period` (default 0), optional
`priority` (default 0) and the dependency list. -/
structure RunnableProps where
  rtype : String
  execution_time : Int
  period : Int := 0
  priority : Int := 0
  deps : List String := []
deriving DecidableEq

/-- An input graph: the insertion-ordered dictionary `runnables`. -/
abbrev Graph := List (String × RunnableProps)

/-- Association list lookup, first binding wins (Python dictionary access). -/
def alookup {κ α : Type} [DecidableEq κ] : List (κ × α) → κ → Option α
  | [], _ => none
  | (k0, v) :: rest, k => if k0 = k then some v else alookup rest k

/-- Association list update: replace the first binding of the key in place, or
append a fresh binding (Python dictionary assignment). -/
def aset {κ α : Type} [DecidableEq κ] : List (κ × α) → κ → α → List (κ × α)
  | [], k, v => [(k, v)]
  | (k0, v0) :: rest, k, v =>
      if k0 = k then (k, v) :: rest else (k0, v0) :: aset rest k v

/-- Association list removal of the first binding of a key (Python `dict.pop`). -/
def aerase {κ α : Type} [DecidableEq κ] : List (κ × α) → κ → List (κ × α)
  | [], _ => []
  | (k0, v0) :: rest, k => if k0 = k then rest else (k0, v0) :: aerase rest k

/-- Insertion step of a stable insertion sort. -/
def insertLe {α : Type} (le : α → α → Bool) (x : α) : List α → List α
  | [] => [x]
  | y :: ys => if le x y then x :: y :: ys else y :: insertLe le x ys

/-- Stable insertion sort, modelling Python `sorted`. -/
def sortLe {α : Type} (le : α → α → Bool) : List α → List α
  | [] => []
  | x :: xs => insertLe le x (sortLe le xs)

/-- Boolean order on natural numbers for `sorted` over core indices. -/
def natLeB (a b : Nat) : Bool := a ≤ b

/-- Strict lexicographic comparison of character lists by code point, the
order Python uses on strings. -/
def strLtList : List Char → List Char → Bool
  | [], [] => false
  | [], _ :: _ => true
  | _ :: _, [] => false
  | a :: as, b :: bs =>
      if a.toNat < b.toNat then true
      else if b.toNat < a.toNat then false
      else strLtList as bs

/-- Strict order on strings by code point. -/
def strLtB (a b : String) : Bool := strLtList a.data b.data

/-- Boolean order on strings for `sorted` over runnable names. -/
def strLeB (a b : String) : Bool := ¬ strLtB b a

/-- ASCII lowercase of one character (the `str.lower` of the source acts on
ASCII policy names). -/
def charLower (c : Char) : Char :=
  if 65 ≤ c.toNat ∧ c.toNat ≤ 90 then Char.ofNat (c.toNat + 32) else c

/-- ASCII lowercase of a string, modelling `policy.lower()`. -/
def strLower (s : String) : String := ⟨s.data.map charLower⟩

/-- Minimum of a list of naturals with a default (guarded by non-emptiness at
every use site, mirroring Python `min`). -/
def listMinD (l : List Nat) (d : Nat) : Nat :=
  match l with
  | [] => d
  | x :: xs => xs.foldl min x

/-- Minimum key of an association list over strings (Python `min(d.keys())`),
with a default for the empty case that every use site guards against. -/
def minKeyD {α : Type} (l : List (String × α)) (d : String) : String :=
  match l with
  | [] => d
  | p :: rest =>
      (rest.map Prod.fst).foldl (fun a b => if strLeB a b then a else b) p.1

/-- Maximum of a list of integers with Python `max(xs, default=0)` semantics:
the default applies only to the empty list. -/
def listMaxD0 (l : List Int) : Int :=
  match l with
  | [] => 0
  | x :: xs => xs.foldl max x

/-- Execution time of a named runnable (`runnables[n]["execution_time"]`). -/
def execOf (g : Graph) (n : String) : Int :=
  ((alookup g n).map (fun p => p.execution_time)).getD 0

/-- Period of a named runnable (`props.get("period", 0)`). -/
def periodOf (g : Graph) (n : String) : Int :=
  ((alookup g n).map (fun p => p.period)).getD 0

/-- Priority of a named runnable (`props.get("priority", 0)`). -/
def prioOf (g : Graph) (n : String) : Int :=
  ((alookup g n).map (fun p => p.priority)).getD 0

/-- Type tag of a named runnable (`props.get("type")`). -/
def typeOf (g : Graph) (n : String) : String :=
  ((alookup g n).map (fun p => p.rtype)).getD ""

/-- Whether a name is a key of the graph (`dep in runnables`). -/
def memGraph (g : Graph) (n : String) : Bool :=
  (alookup g n).isSome

/-- One step of `topology`: record one dependency edge when its target exists. -/
def topoEdge (g : Graph) (sp : List (String × List String) × List (String × List String))
    (n dep : String) : List (String × List String) × List (String × List String) :=
  if memGraph g dep then
    (aset sp.1 dep (((alookup sp.1 dep).getD []) ++ [n]),
     aset sp.2 n (((alookup sp.2 n).getD []) ++ [dep]))
  else sp

/-- The `topology` function of the source: forward successors and reverse
predecessors, ignoring dependencies that name unknown nodes. -/
def topology (g : Graph) :
    List (String × List String) × List (String × List String) :=
  let s0 := g.map (fun p => (p.1, ([] : List String)))
  let p0 := g.map (fun p => (p.1, ([] : List String)))
  g.foldl (fun sp np => np.2.deps.foldl (fun sp d => topoEdge g sp np.1 d) sp) (s0, p0)

/-- The `compute_total_work` function: sum of all execution times. -/
def compute_total_work (g : Graph) : Int :=
  (g.map (fun p => p.2.execution_time)).sum

/-- The `order_eligible` function: FCFS sorts by `(eta, name)`, PAS sorts by
`(-priority, eta, name)`, both ascending and lexicographic as Python tuple
comparison does. -/
def order_eligible (eligible : List String) (g : Graph) (eta : List (String × Int))
    (policy : String) : List String :=
  if strLower policy = "pas" then
    sortLe (fun a b =>
      let pa : Int := -(prioOf g a)
      let pb : Int := -(prioOf g b)
      let ea : Int := (alookup eta a).getD 0
      let eb : Int := (alookup eta b).getD 0
      decide (pa < pb) || (decide (pa = pb) &&
        (decide (ea < eb) || (decide (ea = eb) && strLeB a b)))) eligible
  else
    sortLe (fun a b =>
      let ea : Int := (alookup eta a).getD 0
      let eb : Int := (alookup eta b).getD 0
      decide (ea < eb) || (decide (ea = eb) && strLeB a b)) eligible

/-- List of core indices `0, 1, ..., k-1` (Python `list(range(k))`). -/
def rangeCores (k : Nat) : List Nat := List.range k

/-- The `static_allocation` function: the lowest
`max(1, min(num_cores, p_max, n_min))` core indices. -/
def static_allocation (num_cores : Nat) (p_max n_min : Int) : List Nat :=
  rangeCores (max 1 (min (num_cores : Int) (min p_max n_min))).toNat

/-- The `dynamic_allocation` function: the first
`min(len(idle_cores), len(eligible))` idle cores. -/
def dynamic_allocation (idle_cores : List Nat) (eligible : List String) : List Nat :=
  idle_cores.take (min idle_cores.length eligible.length)

/-- One pass of the longest-path dynamic program in
`compute_parallelism_bounds`: process every remaining node in order, assigning
a path length whenever all predecessors already have one. -/
def cpPass (g : Graph) (preds : List (String × List String)) :
    List String → List (String × Int) → List (String × Int) × List String × Bool
  | [], acc => (acc, [], false)
  | n :: rest, acc =>
      let pn := (alookup preds n).getD []
      if pn.all (fun p => (alookup acc p).isSome) then
        let v := listMaxD0 (pn.map (fun p => ((alookup acc p).getD 0) + execOf g p))
        let r := cpPass g preds rest (aset acc n v)
        (r.1, r.2.1, true)
      else
        let r := cpPass g preds rest acc
        (r.1, n :: r.2.1, r.2.2)

/-- Iterate `cpPass` until no progress is made (cycles break conservatively),
with fuel bounded by the node count exactly as the drain can take. -/
def cpLoop (g : Graph) (preds : List (String × List String)) :
    Nat → List String → List (String × Int) → List (String × Int)
  | 0, _, acc => acc
  | _, [], acc => acc
  | fuel + 1, remaining, acc =>
      let r := cpPass g preds remaining acc
      if r.2.2 then cpLoop g preds fuel r.2.1 r.1 else r.1

/-- Critical path length: longest-path values plus own execution times, maximum
over all drained nodes, default 0. -/
def criticalPath (g : Graph) : Int :=
  let preds := (topology g).2
  let acc := cpLoop g preds (g.length + 1) (g.map Prod.fst) []
  listMaxD0 (acc.map (fun p => p.2 + execOf g p.1))

/-- Add a name to a list unless present (set insertion of the source). -/
def addUnique (l : List String) (n : String) : List String :=
  if n ∈ l then l else l ++ [n]

/-- One level of the unlimited-core simulation in `calculate_max_parallelism`:
from the executed frontier, collect the successors whose predecessors are all
completed. -/
def nextFrontier (g : Graph) (succs : List (String × List String))
    (completed frontier : List String) : List String :=
  frontier.foldl (fun newly r =>
    ((alookup succs r).getD []).foldl (fun newly sc =>
      if sc ∈ completed ∨ sc ∈ newly then newly
      else
        let pn := (alookup g sc).map (fun p => p.deps)
        if (pn.getD []).all (fun p => p ∈ completed) then addUnique newly sc
        else newly) newly) []

/-- Level loop of `calculate_max_parallelism`, fueled by the node count. -/
def maxParLoop (g : Graph) (succs : List (String × List String)) :
    Nat → List String → List String → Nat → Nat
  | 0, _, _, best => best
  | _, _, [], best => best
  | fuel + 1, completed, frontier, best =>
      let completed := frontier.foldl addUnique completed
      let newly := nextFrontier g succs completed frontier
      maxParLoop g succs fuel completed newly (max best newly.length)

/-- The `calculate_max_parallelism` helper: maximum frontier size of a
level-synchronous unlimited-core execution, minimum 1. -/
def calculate_max_parallelism (g : Graph) : Int :=
  let succs := (topology g).1
  let init := g.foldl (fun acc np =>
    if np.2.rtype = "periodic" ∨ np.2.deps.length = 0 then addUnique acc np.1
    else acc) []
  let best := maxParLoop g succs (g.length + 2) [] init init.length
  ((max best 1 : Nat) : Int)

/-- The `calculate_min_core_count` helper.  Modelling note: the source computes
`s`, `p` and the quotient with IEEE-754 doubles; this embedding uses exact
rational arithmetic, the single idealisation of the development (the epsilon
clamp of the source is the identity at epsilon = 0.9 and is dropped). -/
def calculate_min_core_count (num_cores : Nat) (total_work critical_path : Int) : Int :=
  if total_work ≤ 0 then 1
  else
    let s : ℚ := max 0 (min 1 ((critical_path : ℚ) / (total_work : ℚ)))
    let p : ℚ := max 0 (1 - s)
    if s = 0 then (num_cores : Int)
    else max 1 ⌈(9 / 10 * p) / (s * (1 - 9 / 10 : ℚ))⌉

/-- The `compute_parallelism_bounds` function: the pair `(P_max, N_min)`. -/
def compute_parallelism_bounds (g : Graph) (num_cores : Nat) : Int × Int :=
  (calculate_max_parallelism g,
   calculate_min_core_count num_cores (compute_total_work g) (criticalPath g))

/-- One emitted schedule entry, mirroring the `ScheduleEntry` dataclass. -/
structure ScheduleEntry where
  runnable : String
  start_time : Int
  finish_time : Int
  core : Nat
  eligible_time : Int
deriving DecidableEq

/-- Instrumentation record (not in the source): one decision point of the main
loop, with the ordered eligible names, the admissible core count before
dispatch, the names dispatched at the point and the event names deferred by the
periodic-protection rule.  It only observes the run and never feeds back into
it. -/
structure DecisionPoint where
  dtau : Int
  eligible : List String
  availCount : Nat
  dispatched : List String
  deferredEv : List String
deriving DecidableEq

/-- The mutable state of one run of `run_main_scheduler`.  `tau` and
`next_active` are `Option Int` with `none` playing the role of the `inf`
sentinel of the source. -/
structure SchedState where
  tau : Option Int
  next_active : Option Int
  phi : List (String × Int)
  eta : List (String × Int)
  startT : List (String × Int)
  tokens : List ((String × String) × Int)
  running : List ((String × Int) × (Int × Nat))
  idle_cores : List Nat
  available_cores : List Nat
  schedule : List ScheduleEntry
  total_delay : Int
  decision_log : List DecisionPoint
deriving DecidableEq

/-- Static per-run context: graph, core count, the two policy strings, the
horizon and the topology maps. -/
structure Ctx where
  g : Graph
  num_cores : Nat
  sched_policy : String
  alloc_policy : String
  horizon : Int
  succs : List (String × List String)
  preds : List (String × List String)

/-- Successor list of a name. -/
def succsOf (C : Ctx) (n : String) : List String := (alookup C.succs n).getD []

/-- Predecessor list of a name. -/
def predsOf (C : Ctx) (n : String) : List String := (alookup C.preds n).getD []

/-- Whether the run uses dynamic allocation
(`allocation_policy.lower() == "dynamic"`). -/
def isDynamic (C : Ctx) : Bool := strLower C.alloc_policy = "dynamic"

/-- Whether the run uses static allocation
(`allocation_policy.lower() == "static"`). -/
def isStatic (C : Ctx) : Bool := strLower C.alloc_policy = "static"

/-- Strict comparison of an extended time with a finite bound: `inf < b` is
false. -/
def oLtI (a : Option Int) (b : Int) : Bool :=
  match a with
  | none => false
  | some x => x < b

/-- Minimum of two extended times, `none` standing for plus infinity. -/
def oMin (a b : Option Int) : Option Int :=
  match a, b with
  | none, b => b
  | a, none => a
  | some x, some y => some (min x y)

/-- Minimum finish time over the running set (`None` when empty). -/
def minFin (running : List ((String × Int) × (Int × Nat))) : Option Int :=
  match running with
  | [] => none
  | r :: rest => some ((rest.map (fun q => q.2.1)).foldl min r.2.1)

/-- Minimum of the periodic release table strictly after the current time
(`min((t for t in phi.values() if t > tau), default=inf)`); when the current
time is the `inf` sentinel the filter is empty. -/
def minPhiGt (phi : List (String × Int)) (tau : Option Int) : Option Int :=
  match tau with
  | none => none
  | some t =>
      match (phi.map Prod.snd).filter (fun v => t < v) with
      | [] => none
      | v :: vs => some (vs.foldl min v)

/-- The `get_event_at_tau` closure: event-typed nodes whose incoming edges all
hold a token and whose recorded start is at most the current time. -/
def get_event_at_tau (C : Ctx) (s : SchedState) (t : Int) : List String :=
  C.g.filterMap (fun np =>
    if np.2.rtype ≠ "periodic"
        ∧ (predsOf C np.1).all (fun p => 0 < (alookup s.tokens (p, np.1)).getD 0)
        ∧ (alookup s.startT np.1).getD 0 ≤ t then
      some np.1
    else none)

/-- The `get_periodic_at_tau` closure: names whose next release is the current
time, sorted by name. -/
def get_periodic_at_tau (s : SchedState) (t : Int) : List String :=
  sortLe strLeB ((s.phi.filter (fun pr => pr.2 = t)).map Prod.fst)

/-- Deferral amount of `run_periodic_now` when no admissible core exists: the
time from `t` to the earliest running finish, 0 when nothing runs. -/
def deferDelta (running : List ((String × Int) × (Int × Nat))) (t : Int) : Int :=
  match running with
  | [] => 0
  | r :: rest => ((rest.map (fun q => q.2.1)).foldl min r.2.1) - t

/-- The body of `run_periodic_now` for one periodic name: dispatch on the
smallest admissible core, or defer the release by the time to the earliest
running finish when no admissible core exists. -/
def periodicStep (C : Ctx) (t : Int) (n : String) (s : SchedState) : SchedState :=
  match s.available_cores with
  | [] =>
      let tx : Int := deferDelta s.running t
      { s with total_delay := s.total_delay + tx, phi := aset s.phi n (t + tx) }
  | a :: rest =>
      let core := listMinD (a :: rest) 0
      let ti := execOf C.g n
      let fin := t + ti
      let Ti := periodOf C.g n
      let phi2 :=
        if 0 < Ti ∧ t + Ti < C.horizon then aset s.phi n (t + Ti) else aerase s.phi n
      { s with
        available_cores := (a :: rest).erase core,
        idle_cores := s.idle_cores.erase core,
        running := aset s.running (n, t) (fin, core),
        schedule := s.schedule ++ [⟨n, t, fin, core, t⟩],
        phi := phi2 }

/-- The `run_periodic_now` closure, folded over the ordered periodic names. -/
def runPeriodicNow (C : Ctx) (t : Int) : List String → SchedState → SchedState
  | [], s => s
  | n :: rest, s => runPeriodicNow C t rest (periodicStep C t n s)

/-- State change of dispatching one event runnable on a popped snapshot core:
remove the core from both pools when still admissible, record the running job,
emit the entry and consume one token per incoming edge. -/
def eventDispatch (C : Ctx) (t : Int) (n : String) (core : Nat) (s1 : SchedState) :
    SchedState :=
  let ti := execOf C.g n
  let s2 :=
    if core ∈ s1.available_cores then
      { s1 with
        available_cores := s1.available_cores.erase core,
        idle_cores := s1.idle_cores.erase core }
    else s1
  { s2 with
    running := aset s2.running (n, t) (t + ti, core),
    schedule := s2.schedule ++ [⟨n, t, t + ti, core, t⟩],
    tokens := (predsOf C n).foldl (fun tk p =>
      aset tk (p, n) (((alookup tk (p, n)).getD 0) - 1)) s2.tokens }

/-- The event-dispatch loop of the kernel.  `savail` is the sorted snapshot of
the admissible cores; `na` is the stale `next_active` read by the
periodic-protection rule.  Returns the new state and the names deferred by that
rule; an empty snapshot or a dispatch that would cross the horizon stops the
loop. -/
def runEventsAux (C : Ctx) (t : Int) (na : Option Int) :
    List String → List Nat → SchedState → SchedState × List String
  | [], _, s => (s, [])
  | n :: rest, savail, s =>
      let s1 := { s with startT := aset s.startT n t }
      match savail with
      | [] => (s1, [])
      | core :: srest =>
          let ti := execOf C.g n
          if C.horizon < t + ti then (s1, [])
          else
            let stn := (alookup s1.startT n).getD 0
            match na with
            | some nav =>
                if s1.phi ≠ [] ∧ nav < stn + ti ∧ stn ≤ t then
                  let fk := minKeyD s1.phi ""
                  let ds := nav + execOf C.g fk
                  let s2 := { s1 with
                    total_delay := s1.total_delay + (ds - stn),
                    startT := aset s1.startT n ds }
                  let r := runEventsAux C t na rest (core :: srest) s2
                  (r.1, n :: r.2)
                else
                  runEventsAux C t na rest srest (eventDispatch C t n core s1)
            | none =>
                runEventsAux C t na rest srest (eventDispatch C t n core s1)

/-- Completion effects of one finished job: return its core to the idle pool
(and, under static allocation, to the admissible pool), then feed every
successor one token and stamp its start and eligible times. -/
def completeOne (C : Ctx) (s : SchedState) (r : (String × Int) × (Int × Nat)) :
    SchedState :=
  let core := r.2.2
  let fin := r.2.1
  let s1 := { s with
    idle_cores :=
      if core ∈ s.idle_cores then s.idle_cores
      else sortLe natLeB (s.idle_cores ++ [core]),
    available_cores :=
      if isStatic C then sortLe natLeB (s.available_cores ++ [core])
      else s.available_cores }
  (succsOf C r.1.1).foldl (fun s sc =>
    { s with
      tokens := aset s.tokens (r.1.1, sc) (((alookup s.tokens (r.1.1, sc)).getD 0) + 1),
      startT := aset s.startT sc fin,
      eta := aset s.eta sc fin }) s1

/-- Time advancement at the end of one loop body: find the next decision
instant, complete every job finishing exactly then, and store the new `tau` and
`next_active`. -/
def advance (C : Ctx) (t1 : Option Int) (s : SchedState) : SchedState :=
  let nf := minFin s.running
  let na2 := minPhiGt s.phi t1
  let tauNext := oMin nf na2
  let completing := s.running.filter (fun r => some r.2.1 = tauNext)
  let remaining := s.running.filter (fun r => ¬ some r.2.1 = tauNext)
  let s1 := completing.foldl (completeOne C) s
  { s1 with running := remaining, tau := tauNext, next_active := na2 }

/-- One body of the `while tau < T_end` loop.  The guard has already been
checked, so `tau` is finite on entry; the idle-then-jump shortcut may still
move it to the `inf` sentinel mid-body, in which case both eligible classes are
empty exactly as in the source. -/
def iterate (C : Ctx) (s : SchedState) : SchedState :=
  match s.tau with
  | none => s
  | some t =>
      let eligEv := get_event_at_tau C s t
      let tau1 : Option Int :=
        if eligEv = [] ∧ C.num_cores ≤ 1 then s.next_active else some t
      match tau1 with
      | none =>
          let s1 :=
            if isDynamic C then { s with available_cores := dynamic_allocation s.idle_cores [] }
            else s
          advance C none s1
      | some t1 =>
          let pnow := get_periodic_at_tau s t1
          let op := order_eligible pnow C.g (pnow.map (fun e => (e, t1))) C.sched_policy
          let oe := order_eligible eligEv C.g
            (eligEv.map (fun e => (e, (alookup s.eta e).getD 0))) C.sched_policy
          let elig := op ++ oe
          let s1 :=
            if isDynamic C then
              { s with available_cores := dynamic_allocation s.idle_cores elig }
            else s
          let ac := s1.available_cores.length
          let len0 := s1.schedule.length
          let s2 := runPeriodicNow C t1 op s1
          let pr := runEventsAux C t1 s2.next_active oe (sortLe natLeB s2.available_cores) s2
          let dp : DecisionPoint :=
            ⟨t1, elig, ac, (pr.1.schedule.drop len0).map (fun e => e.runnable), pr.2⟩
          advance C (some t1) { pr.1 with decision_log := pr.1.decision_log ++ [dp] }

/-- The fueled main loop: run bodies while `tau < T_end`. -/
def loop (C : Ctx) : Nat → SchedState → SchedState
  | 0, s => s
  | fuel + 1, s => if oLtI s.tau C.horizon then loop C fuel (iterate C s) else s

/-- Initial release table, eligible times and recorded starts: periodic nodes
with a positive period enter `phi` at 0, every other node gets `eta` and
`start` 0. -/
def initMaps (g : Graph) :
    List (String × Int) × List (String × Int) × List (String × Int) :=
  g.foldl (fun acc np =>
    if np.2.rtype = "periodic" ∧ 0 < np.2.period then
      (aset acc.1 np.1 0, acc.2.1, acc.2.2)
    else
      (acc.1, aset acc.2.1 np.1 0, aset acc.2.2 np.1 0)) ([], [], [])

/-- Initial token table: one zero-valued token slot per dependency edge. -/
def initTokens (C : Ctx) (g : Graph) : List ((String × String) × Int) :=
  g.foldl (fun tk np => (predsOf C np.1).foldl (fun tk p => aset tk (p, np.1) 0) tk) []

/-- The horizon `T_end`: `I * W` when the iteration count is given, else
`2 * W`. -/
def horizonOf (g : Graph) (I : Option Int) : Int :=
  match I with
  | none => 2 * compute_total_work g
  | some i => i * compute_total_work g

/-- Build the run context from the inputs. -/
def mkCtx (g : Graph) (num_cores : Nat) (sp ap : String) (I : Option Int) : Ctx :=
  ⟨g, num_cores, sp, ap, horizonOf g I, (topology g).1, (topology g).2⟩

/-- Initial scheduler state of a run. -/
def initState (C : Ctx) : SchedState :=
  let m := initMaps C.g
  let avail :=
    if isStatic C then
      static_allocation C.num_cores (compute_parallelism_bounds C.g C.num_cores).1
        (compute_parallelism_bounds C.g C.num_cores).2
    else rangeCores C.num_cores
  { tau := some 0
    next_active := some 0
    phi := m.1
    eta := m.2.1
    startT := m.2.2
    tokens := initTokens C C.g
    running := []
    idle_cores := rangeCores C.num_cores
    available_cores := avail
    schedule := []
    total_delay := 0
    decision_log := [] }

/-- Fuel sufficient for every terminating run: when all execution times are
positive, `tau` strictly increases at every body, so at most `T_end + 2`
bodies ever run. -/
def fuelOf (g : Graph) (I : Option Int) : Nat := (horizonOf g I).toNat + 2

/-- The full run, returning the final state (with instrumentation). -/
def runState (g : Graph) (num_cores : Nat) (sp ap : String) (I : Option Int) :
    SchedState :=
  let C := mkCtx g num_cores sp ap I
  loop C (fuelOf g I) (initState C)

/-- Makespan of a schedule: `max(finish, default=0)`. -/
def maxFinish (l : List ScheduleEntry) : Int :=
  match l with
  | [] => 0
  | e :: rest => (rest.map (fun q => q.finish_time)).foldl max e.finish_time

/-- The `run_main_scheduler` function: the emitted schedule, the makespan and
the accumulated delay. -/
def run_main_scheduler (g : Graph) (num_cores : Nat) (sp ap : String)
    (I : Option Int) : List ScheduleEntry × Int × Int :=
  let s := runState g num_cores sp ap I
  (s.schedule, maxFinish s.schedule, s.total_delay)

/-- The `total_wait_time` metric: per-entry waiting summed over the schedule. -/
def total_wait_time (schedule : List ScheduleEntry) : Int :=
  (schedule.map (fun e => max 0 (e.start_time - e.eligible_time))).sum

/-- Total dispatched work of a schedule: the sum of entry durations. -/
def dispatchedWork (l : List ScheduleEntry) : Int :=
  (l.map (fun e => e.finish_time - e.start_time)).sum

/-- Whether the topology pass drains every node, i.e. the longest-path dynamic
program assigns a value to every name; failure signals a dependency cycle. -/
def dagDrains (g : Graph) : Bool :=
  let preds := (topology g).2
  let acc := cpLoop g preds (g.length + 1) (g.map Prod.fst) []
  (g.map Prod.fst).all (fun n => (alookup acc n).isSome)

/-- Well-formedness of an input graph, following the input invariants of the
specification: every dependency resolves, execution times are positive,
periodic nodes have a positive period and the dependency relation is acyclic. -/
abbrev wellFormedInput (g : Graph) : Prop :=
  (∀ np ∈ g, ∀ d ∈ np.2.deps, memGraph g d = true)
  ∧ (∀ np ∈ g, 0 < np.2.execution_time)
  ∧ (∀ np ∈ g, np.2.rtype = "periodic" → 0 < np.2.period)
  ∧ dagDrains g = true

/-- The two half-open execution windows of two schedule entries share no
instant. -/
def entriesDisjoint (e1 e2 : ScheduleEntry) : Prop :=
  ∀ x : Int, ¬ (e1.start_time ≤ x ∧ x < e1.finish_time
    ∧ e2.start_time ≤ x ∧ x < e2.finish_time)

/-- Formalisation of claim C4 as stated: under PAS, at every decision point
with at least as many admissible cores as eligible runnables, no eligible
runnable is dispatched while a strictly higher-priority eligible runnable is
left undispatched. -/
abbrev pasAmpleRespectsPriority (g : Graph) (num_cores : Nat) (ap : String)
    (I : Option Int) : Prop :=
  ∀ dp ∈ (runState g num_cores "pas" ap I).decision_log,
    dp.eligible.length ≤ dp.availCount →
    ∀ a ∈ dp.eligible, ∀ b ∈ dp.eligible,
      a ∈ dp.dispatched → b ∉ dp.dispatched → prioOf g b ≤ prioOf g a

/-- Order on extended times, `none` standing for plus infinity. -/
def oLe : Option Int → Option Int → Prop
  | _, none => True
  | none, some _ => False
  | some a, some b => a ≤ b

/-- Cores of a list of running records. -/
def coresOf (l : List ((String × Int) × (Int × Nat))) : List Nat :=
  l.map (fun r => r.2.2)

/-- Cores of the currently running jobs. -/
def runCores (s : SchedState) : List Nat := coresOf s.running

/-- Proof-layer description of the state change common to dispatching one job
at instant `t1`: the chosen core leaves both pools, the job is recorded as
running and its entry is emitted; `phi2` is the release table after the step.
The dispatch branches of `periodicStep` and `eventDispatch` produce exactly
this shape. -/
def dispatchState (s : SchedState) (phi2 : List (String × Int)) (n : String)
    (t1 ti : Int) (core : Nat) : SchedState :=
  { s with
    phi := phi2,
    available_cores := s.available_cores.erase core,
    idle_cores := s.idle_cores.erase core,
    running := aset s.running (n, t1) (t1 + ti, core),
    schedule := s.schedule ++ [⟨n, t1, t1 + ti, core, t1⟩] }

/-- All execution times of the graph are non-negative (the specification in
fact demands positive ones). -/
def ExecNonneg (g : Graph) : Prop := ∀ np ∈ g, 0 ≤ np.2.execution_time

/-- Single periodic node of scenario S5: period 5, execution time 2. -/
def graphS5 : Graph :=
  [("A", { rtype := "periodic", execution_time := 2, period := 5,
           priority := 0, deps := [] })]

/-- A malformed graph: node `B` depends on the unknown name `Z`. -/
def graphBadDep : Graph :=
  [("A", { rtype := "periodic", execution_time := 2, period := 5,
           priority := 0, deps := [] }),
   ("B", { rtype := "event", execution_time := 1, period := 0,
           priority := 0, deps := ["Z"] })]

/-- Priority-inversion scenario for C4: periodic source `A`, long
high-priority event `X` and short low-priority event `Y`, both depending on
`A`. -/
def graphPrioInv : Graph :=
  [("A", { rtype := "periodic", execution_time := 2, period := 10,
           priority := 0, deps := [] }),
   ("X", { rtype := "event", execution_time := 10, period := 0,
           priority := 5, deps := ["A"] }),
   ("Y", { rtype := "event", execution_time := 1, period := 0,
           priority := 1, deps := ["A"] })]

/-- Mid-iteration invariant of the kernel state, holding while the body
dispatches at the (finite) decision instant `t1`.  The schedule-related fields
are exactly what claims C2, C5 and C7 need; the core-pool fields are the
bookkeeping that keeps one core from hosting two overlapping jobs. -/
structure Mid (C : Ctx) (t1 : Int) (s : SchedState) : Prop where
  t0 : 0 ≤ t1
  fin_ge : ∀ r ∈ s.running, t1 ≤ r.2.1
  run_key_nodup : (s.running.map Prod.fst).Nodup
  run_core_nodup : (runCores s).Nodup
  run_lt : ∀ r ∈ s.running, r.2.2 < C.num_cores
  idle_nodup : s.idle_cores.Nodup
  idle_lt : ∀ c ∈ s.idle_cores, c < C.num_cores
  idle_disj : ∀ r ∈ s.running, r.2.2 ∉ s.idle_cores
  avail_nodup : s.available_cores.Nodup
  avail_lt : ∀ c ∈ s.available_cores, c < C.num_cores
  avail_disj : ∀ r ∈ s.running, r.2.2 ∉ s.available_cores
  phi_nodup : (s.phi.map Prod.fst).Nodup
  phi_nonneg : ∀ pr ∈ s.phi, 0 ≤ pr.2
  phi_periodic : ∀ pr ∈ s.phi, typeOf C.g pr.1 = "periodic"
  phi_count : ∀ pr ∈ s.phi,
    (periodOf C.g pr.1) *
      ((s.schedule.filter (fun e => e.runnable = pr.1)).length : Int) ≤ pr.2
  sched_fin : ∀ e ∈ s.schedule, e.finish_time = e.start_time + execOf C.g e.runnable
  sched_start0 : ∀ e ∈ s.schedule, 0 ≤ e.start_time
  sched_core_lt : ∀ e ∈ s.schedule, e.core < C.num_cores
  sched_link : ∀ e ∈ s.schedule, e.finish_time ≤ t1
    ∨ (∃ r ∈ s.running, r.2.2 = e.core ∧ r.2.1 = e.finish_time)
    ∨ (e.core ∉ s.idle_cores ∧ e.core ∉ s.available_cores ∧ e.core ∉ runCores s)
  disj : s.schedule.Pairwise (fun e1 e2 => e1.core = e2.core → entriesDisjoint e1 e2)
  periodic_start : ∀ n, typeOf C.g n = "periodic" → ∀ k : Nat,
    ∀ hk : k < (s.schedule.filter (fun e => e.runnable = n)).length,
    (periodOf C.g n) * (k : Int) ≤
      ((s.schedule.filter (fun e => e.runnable = n)).get ⟨k, hk⟩).start_time

/-- Boundary invariant of the kernel state between loop bodies. -/
structure Inv (C : Ctx) (s : SchedState) : Prop where
  tau0 : ∀ t : Int, s.tau = some t → 0 ≤ t
  na_ge : oLe s.tau s.next_active
  fin_ge : ∀ r ∈ s.running, oLe s.tau (some r.2.1)
  na_fin : C.num_cores = 1 → ∀ r ∈ s.running, oLe s.next_active (some r.2.1)
  run_key_nodup : (s.running.map Prod.fst).Nodup
  run_core_nodup : (runCores s).Nodup
  run_lt : ∀ r ∈ s.running, r.2.2 < C.num_cores
  idle_nodup : s.idle_cores.Nodup
  idle_lt : ∀ c ∈ s.idle_cores, c < C.num_cores
  idle_disj : ∀ r ∈ s.running, r.2.2 ∉ s.idle_cores
  avail_nodup : s.available_cores.Nodup
  avail_lt : ∀ c ∈ s.available_cores, c < C.num_cores
  avail_disj : ∀ r ∈ s.running, r.2.2 ∉ s.available_cores
  phi_nodup : (s.phi.map Prod.fst).Nodup
  phi_nonneg : ∀ pr ∈ s.phi, 0 ≤ pr.2
  phi_periodic : ∀ pr ∈ s.phi, typeOf C.g pr.1 = "periodic"
  phi_count : ∀ pr ∈ s.phi,
    (periodOf C.g pr.1) *
      ((s.schedule.filter (fun e => e.runnable = pr.1)).length : Int) ≤ pr.2
  sched_fin : ∀ e ∈ s.schedule, e.finish_time = e.start_time + execOf C.g e.runnable
  sched_start0 : ∀ e ∈ s.schedule, 0 ≤ e.start_time
  sched_core_lt : ∀ e ∈ s.schedule, e.core < C.num_cores
  sched_link : ∀ e ∈ s.schedule, oLe (some e.finish_time) s.tau
    ∨ (∃ r ∈ s.running, r.2.2 = e.core ∧ r.2.1 = e.finish_time)
    ∨ (e.core ∉ s.idle_cores ∧ e.core ∉ s.available_cores ∧ e.core ∉ runCores s)
  disj : s.schedule.Pairwise (fun e1 e2 => e1.core = e2.core → entriesDisjoint e1 e2)
  periodic_start : ∀ n, typeOf C.g n = "periodic" → ∀ k : Nat,
    ∀ hk : k < (s.schedule.filter (fun e => e.runnable = n)).length,
    (periodOf C.g n) * (k : Int) ≤
      ((s.schedule.filter (fun e => e.runnable = n)).get ⟨k, hk⟩).start_time

/-- The per-decision-point property of the amended claim C4, with ample
admissible cores.  First clause: among the event-typed eligible runnables, no
runnable is dispatched while a strictly higher-priority event-typed one is
left both undispatched and undeferred.  Second clause: when every eligible
event's dispatch also fits within the horizon, every eligible runnable not
deferred by the periodic-protection rule — periodic or event — is dispatched,
so no priority inversion of any kind occurs among undeferred runnables. -/
def pasDecisionOk (C : Ctx) (dp : DecisionPoint) : Prop :=
  (dp.eligible.length ≤ dp.availCount →
    ∀ a ∈ dp.eligible, ∀ b ∈ dp.eligible,
      typeOf C.g a ≠ "periodic" → typeOf C.g b ≠ "periodic" →
      a ∈ dp.dispatched → b ∉ dp.dispatched → b ∉ dp.deferredEv →
      prioOf C.g b ≤ prioOf C.g a)
  ∧ (dp.eligible.length ≤ dp.availCount →
      (∀ m ∈ dp.eligible, typeOf C.g m ≠ "periodic" →
        ¬ C.horizon < dp.dtau + execOf C.g m) →
      ∀ b ∈ dp.eligible, b ∉ dp.deferredEv → b ∈ dp.dispatched)

/-- Formalisation of the amended claim C4 over a whole run under PAS. -/
abbrev pasAmpleRespectsPriorityAmended (g : Graph) (num_cores : Nat)
    (ap : String) (I : Option Int) : Prop :=
  ∀ dp ∈ (runState g num_cores "pas" ap I).decision_log,
    pasDecisionOk (mkCtx g num_cores "pas" ap I) dp

/-- The static core budget `c_alloc = max(1, min(num_cores, P_max, N_min))` of
a run, as computed once by `static_allocation`. -/
def callocOf (C : Ctx) : Nat :=
  (max 1 (min (C.num_cores : Int)
    (min (compute_parallelism_bounds C.g C.num_cores).1
      (compute_parallelism_bounds C.g C.num_cores).2))).toNat

/-- Invariant of a static-allocation run: every admissible, running and
emitted core index stays below the static core budget. -/
structure InvStatic (C : Ctx) (s : SchedState) : Prop where
  avail_lt : ∀ c ∈ s.available_cores, c < callocOf C
  run_lt : ∀ r ∈ s.running, r.2.2 < callocOf C
  sched_lt : ∀ e ∈ s.schedule, e.core < callocOf C

theorem foldl_min_mem {α : Type} [LinearOrder α] (xs : List α) (x : α) :
    xs.foldl min x = x ∨ xs.foldl min x ∈ xs := by
  induction xs generalizing x with
  | nil => exact Or.inl rfl
  | cons y ys ih =>
      rcases ih (min x y) with h | h
      · rcases le_total x y with hxy | hxy
        · simp only [List.foldl_cons]
          rw [h, min_eq_left hxy]
          exact Or.inl rfl
        · simp only [List.foldl_cons]
          rw [h, min_eq_right hxy]
          exact Or.inr (List.mem_cons_self _ _)
      · exact Or.inr (List.mem_cons_of_mem _ h)

theorem foldl_min_le {α : Type} [LinearOrder α] (xs : List α) (x : α) :
    xs.foldl min x ≤ x ∧ ∀ y ∈ xs, xs.foldl min x ≤ y := by
  induction xs generalizing x with
  | nil => exact ⟨le_refl x, by intro y hy; cases hy⟩
  | cons z zs ih =>
      obtain ⟨h1, h2⟩ := ih (min x z)
      refine ⟨le_trans h1 (min_le_left _ _), ?_⟩
      intro y hy
      rcases List.mem_cons.mp hy with rfl | hy
      · exact le_trans h1 (min_le_right _ _)
      · exact h2 y hy

theorem alookup_aset_self {κ α : Type} [DecidableEq κ] (l : List (κ × α)) (k : κ)
    (v : α) : alookup (aset l k v) k = some v := by
  induction l with
  | nil => simp [aset, alookup]
  | cons p rest ih =>
      obtain ⟨pk, pv⟩ := p
      by_cases h : pk = k
      · simp [aset, alookup, h]
      · simp [aset, alookup, h, ih]

theorem alookup_aset_ne {κ α : Type} [DecidableEq κ] (l : List (κ × α)) (k k' : κ)
    (v : α) (h : k' ≠ k) : alookup (aset l k v) k' = alookup l k' := by
  have hk : ¬ k = k' := fun hh => h hh.symm
  induction l with
  | nil => simp [aset, alookup, hk]
  | cons p rest ih =>
      obtain ⟨pk, pv⟩ := p
      by_cases hp : pk = k
      · subst hp
        simp [aset, alookup, hk]
      · simp [aset, alookup, hp, ih]

theorem mem_aset_elim {κ α : Type} [DecidableEq κ] (l : List (κ × α)) (k : κ)
    (v : α) (pr : κ × α) (h : pr ∈ aset l k v) : pr = (k, v) ∨ pr ∈ l := by
  induction l with
  | nil => simpa [aset] using h
  | cons p rest ih =>
      obtain ⟨pk, pv⟩ := p
      by_cases hp : pk = k
      · rw [aset, if_pos hp] at h
        rcases List.mem_cons.mp h with h | h
        · exact Or.inl h
        · exact Or.inr (List.mem_cons_of_mem _ h)
      · rw [aset, if_neg hp] at h
        rcases List.mem_cons.mp h with h | h
        · exact Or.inr (h ▸ List.mem_cons_self _ _)
        · rcases ih h with h | h
          · exact Or.inl h
          · exact Or.inr (List.mem_cons_of_mem _ h)

theorem keys_aset_subset {κ α : Type} [DecidableEq κ] (l : List (κ × α)) (k : κ)
    (v : α) (x : κ) (h : x ∈ (aset l k v).map Prod.fst) :
    x ∈ l.map Prod.fst ∨ x = k := by
  rcases List.mem_map.mp h with ⟨pr, hpr, hx⟩
  rcases mem_aset_elim l k v pr hpr with h2 | h2
  · exact Or.inr (by rw [← hx, h2])
  · exact Or.inl (hx ▸ List.mem_map_of_mem _ h2)

theorem keys_aset_nodup {κ α : Type} [DecidableEq κ] (l : List (κ × α)) (k : κ)
    (v : α) (h : (l.map Prod.fst).Nodup) : ((aset l k v).map Prod.fst).Nodup := by
  induction l with
  | nil => simp [aset]
  | cons p rest ih =>
      obtain ⟨pk, pv⟩ := p
      simp only [List.map_cons, List.nodup_cons] at h
      by_cases hp : pk = k
      · rw [aset, if_pos hp]
        simp only [List.map_cons, List.nodup_cons]
        exact ⟨hp ▸ h.1, h.2⟩
      · rw [aset, if_neg hp]
        simp only [List.map_cons, List.nodup_cons]
        refine ⟨fun hc => ?_, ih h.2⟩
        rcases keys_aset_subset rest k v pk hc with hc | hc
        · exact h.1 hc
        · exact hp hc

theorem mem_aset_nodup {κ α : Type} [DecidableEq κ] (l : List (κ × α)) (k : κ)
    (v : α) (pr : κ × α) (hnd : (l.map Prod.fst).Nodup) (h : pr ∈ aset l k v) :
    pr = (k, v) ∨ (pr ∈ l ∧ pr.1 ≠ k) := by
  induction l with
  | nil =>
      rw [aset] at h
      rcases List.mem_cons.mp h with h | h
      · exact Or.inl h
      · cases h
  | cons p rest ih =>
      obtain ⟨pk, pv⟩ := p
      simp only [List.map_cons, List.nodup_cons] at hnd
      by_cases hp : pk = k
      · rw [aset, if_pos hp] at h
        rcases List.mem_cons.mp h with h | h
        · exact Or.inl h
        · refine Or.inr ⟨List.mem_cons_of_mem _ h, fun hc => ?_⟩
          have : pr.1 ∈ rest.map Prod.fst := List.mem_map_of_mem Prod.fst h
          rw [hc, ← hp] at this
          exact hnd.1 this
      · rw [aset, if_neg hp] at h
        rcases List.mem_cons.mp h with h | h
        · exact Or.inr ⟨h ▸ List.mem_cons_self _ _, by rw [h]; exact hp⟩
        · rcases ih hnd.2 h with h | h
          · exact Or.inl h
          · exact Or.inr ⟨List.mem_cons_of_mem _ h.1, h.2⟩

theorem aerase_sublist {κ α : Type} [DecidableEq κ] (l : List (κ × α)) (k : κ) :
    (aerase l k).Sublist l := by
  induction l with
  | nil => simp [aerase]
  | cons p rest ih =>
      obtain ⟨pk, pv⟩ := p
      by_cases hp : pk = k
      · rw [aerase, if_pos hp]
        exact List.sublist_cons_of_sublist _ (List.Sublist.refl rest)
      · rw [aerase, if_neg hp]
        exact List.Sublist.cons₂ _ ih

theorem mem_aerase {κ α : Type} [DecidableEq κ] (l : List (κ × α)) (k : κ)
    (pr : κ × α) (h : pr ∈ aerase l k) : pr ∈ l :=
  (aerase_sublist l k).mem h

theorem keys_aerase_nodup {κ α : Type} [DecidableEq κ] (l : List (κ × α)) (k : κ)
    (h : (l.map Prod.fst).Nodup) : ((aerase l k).map Prod.fst).Nodup :=
  ((aerase_sublist l k).map Prod.fst).nodup h

theorem insertLe_perm {α : Type} (le : α → α → Bool) (x : α) (l : List α) :
    (insertLe le x l).Perm (x :: l) := by
  induction l with
  | nil => simp [insertLe]
  | cons y ys ih =>
      by_cases h : le x y
      · simp [insertLe, h]
      · simp only [insertLe, h, Bool.false_eq_true, if_false]
        exact (ih.cons y).trans (List.Perm.swap x y ys)

theorem sortLe_perm {α : Type} (le : α → α → Bool) (l : List α) :
    (sortLe le l).Perm l := by
  induction l with
  | nil => simp [sortLe]
  | cons x xs ih => exact (insertLe_perm le x (sortLe le xs)).trans (ih.cons x)

theorem mem_sortLe {α : Type} (le : α → α → Bool) (l : List α) (x : α) :
    x ∈ sortLe le l ↔ x ∈ l :=
  (sortLe_perm le l).mem_iff

theorem length_sortLe {α : Type} (le : α → α → Bool) (l : List α) :
    (sortLe le l).length = l.length :=
  (sortLe_perm le l).length_eq

theorem nodup_sortLe {α : Type} (le : α → α → Bool) (l : List α) (h : l.Nodup) :
    (sortLe le l).Nodup :=
  ((sortLe_perm le l).nodup_iff).mpr h

theorem pairwise_insertLe {α : Type} (le : α → α → Bool)
    (htot : ∀ a b, le a b = true ∨ le b a = true)
    (htrans : ∀ a b c, le a b = true → le b c = true → le a c = true)
    (x : α) (l : List α) (h : l.Pairwise (fun a b => le a b = true)) :
    (insertLe le x l).Pairwise (fun a b => le a b = true) := by
  induction l with
  | nil => simp [insertLe]
  | cons y ys ih =>
      rcases List.pairwise_cons.mp h with ⟨hy, hys⟩
      by_cases hxy : le x y
      · simp only [insertLe, hxy, if_pos rfl]
        refine List.pairwise_cons.mpr ⟨?_, List.pairwise_cons.mpr ⟨hy, hys⟩⟩
        intro z hz
        rcases List.mem_cons.mp hz with rfl | hz
        · exact hxy
        · exact htrans x y z hxy (hy z hz)
      · simp only [insertLe, hxy, Bool.false_eq_true, if_false]
        refine List.pairwise_cons.mpr ⟨?_, ih hys⟩
        intro z hz
        have hz2 := (insertLe_perm le x ys).mem_iff.mp hz
        rcases List.mem_cons.mp hz2 with rfl | hz2
        · rcases htot z y with h2 | h2
          · exact absurd h2 hxy
          · exact h2
        · exact hy z hz2

theorem sortLe_pairwise {α : Type} (le : α → α → Bool)
    (htot : ∀ a b, le a b = true ∨ le b a = true)
    (htrans : ∀ a b c, le a b = true → le b c = true → le a c = true)
    (l : List α) : (sortLe le l).Pairwise (fun a b => le a b = true) := by
  induction l with
  | nil => simp [sortLe]
  | cons x xs ih => exact pairwise_insertLe le htot htrans x (sortLe le xs) ih

theorem oLe_refl (a : Option Int) : oLe a a := by
  cases a <;> simp [oLe]

theorem oLe_trans (a b c : Option Int) (h1 : oLe a b) (h2 : oLe b c) : oLe a c := by
  cases a <;> cases b <;> cases c <;> simp_all [oLe]
  omega

theorem oLe_none (a : Option Int) : oLe a none := by
  cases a <;> simp [oLe]

theorem oMin_le_left (a b : Option Int) : oLe (oMin a b) a := by
  cases a <;> cases b <;> simp [oMin, oLe]

theorem oMin_le_right (a b : Option Int) : oLe (oMin a b) b := by
  cases a <;> cases b <;> simp [oMin, oLe]

theorem oMin_cases (a b : Option Int) : oMin a b = a ∨ oMin a b = b := by
  cases a with
  | none =>
      cases b with
      | none => exact Or.inl rfl
      | some y => exact Or.inr rfl
  | some x =>
      cases b with
      | none => exact Or.inl rfl
      | some y =>
          rcases le_total x y with h | h
          · exact Or.inl (by simp [oMin, min_eq_left h])
          · exact Or.inr (by simp [oMin, min_eq_right h])

theorem listMinD_mem (l : List Nat) (d : Nat) (h : l ≠ []) : listMinD l d ∈ l := by
  match l with
  | [] => exact absurd rfl h
  | x :: xs =>
      rcases foldl_min_mem xs x with h2 | h2
      · simp [listMinD, h2]
      · simp only [listMinD]
        exact List.mem_cons_of_mem _ h2

theorem minFin_le (running : List ((String × Int) × (Int × Nat)))
    (r : (String × Int) × (Int × Nat)) (hr : r ∈ running) (v : Int)
    (hv : minFin running = some v) : v ≤ r.2.1 := by
  match running with
  | [] => cases hr
  | q :: rest =>
      simp only [minFin, Option.some.injEq] at hv
      obtain ⟨h1, h2⟩ := foldl_min_le (rest.map (fun q => q.2.1)) q.2.1
      rcases List.mem_cons.mp hr with rfl | hr
      · exact hv ▸ h1
      · exact hv ▸ h2 _ (List.mem_map_of_mem _ hr)

theorem minFin_mem (running : List ((String × Int) × (Int × Nat))) (v : Int)
    (hv : minFin running = some v) : ∃ r ∈ running, r.2.1 = v := by
  match running with
  | [] => simp [minFin] at hv
  | q :: rest =>
      simp only [minFin, Option.some.injEq] at hv
      rcases foldl_min_mem (rest.map (fun q => q.2.1)) q.2.1 with h | h
      · exact ⟨q, List.mem_cons_self _ _, by rw [← hv, h]⟩
      · rcases List.mem_map.mp h with ⟨r, hr, hrv⟩
        exact ⟨r, List.mem_cons_of_mem _ hr, by rw [← hv, hrv]⟩

theorem minFin_eq_none (running : List ((String × Int) × (Int × Nat))) :
    minFin running = none ↔ running = [] := by
  match running with
  | [] => simp [minFin]
  | q :: rest => simp [minFin]

theorem minPhiGt_gt (phi : List (String × Int)) (t : Int) (v : Int)
    (hv : minPhiGt phi (some t) = some v) : t < v := by
  simp only [minPhiGt] at hv
  cases hfil : (phi.map Prod.snd).filter (fun v => decide (t < v)) with
  | nil => rw [hfil] at hv; cases hv
  | cons w ws =>
      rw [hfil] at hv
      simp only [Option.some.injEq] at hv
      have hmem : v ∈ w :: ws := by
        rcases foldl_min_mem ws w with h | h
        · rw [← hv, h]; exact List.mem_cons_self _ _
        · rw [← hv]; exact List.mem_cons_of_mem _ h
      have := hfil ▸ hmem
      have := List.mem_filter.mp this
      simpa using this.2

theorem minPhiGt_none_gt (phi : List (String × Int)) (t1 : Option Int) (v : Int)
    (hv : minPhiGt phi t1 = some v) : ∃ t : Int, t1 = some t ∧ t < v := by
  cases t1 with
  | none => simp [minPhiGt] at hv
  | some t => exact ⟨t, rfl, minPhiGt_gt phi t v hv⟩

theorem alookup_mem {κ α : Type} [DecidableEq κ] (l : List (κ × α)) (k : κ) (v : α)
    (h : alookup l k = some v) : (k, v) ∈ l := by
  induction l with
  | nil => cases h
  | cons p rest ih =>
      obtain ⟨pk, pv⟩ := p
      by_cases hp : pk = k
      · rw [alookup, if_pos hp] at h
        cases h
        exact hp ▸ List.mem_cons_self _ _
      · rw [alookup, if_neg hp] at h
        exact List.mem_cons_of_mem _ (ih h)

theorem alookup_of_mem_nodup {κ α : Type} [DecidableEq κ] (l : List (κ × α))
    (k : κ) (v : α) (hnd : (l.map Prod.fst).Nodup) (h : (k, v) ∈ l) :
    alookup l k = some v := by
  induction l with
  | nil => cases h
  | cons p rest ih =>
      obtain ⟨pk, pv⟩ := p
      simp only [List.map_cons, List.nodup_cons] at hnd
      rcases List.mem_cons.mp h with h | h
      · cases h
        rw [alookup, if_pos rfl]
      · by_cases hp : pk = k
        · exfalso
          apply hnd.1
          rw [hp]
          exact List.mem_map_of_mem Prod.fst h
        · rw [alookup, if_neg hp]
          exact ih hnd.2 h

theorem mem_aset_preserve {κ α : Type} [DecidableEq κ] (l : List (κ × α)) (k : κ)
    (v : α) (pr : κ × α) (h : pr ∈ l) (hne : pr.1 ≠ k) : pr ∈ aset l k v := by
  induction l with
  | nil => cases h
  | cons p rest ih =>
      obtain ⟨pk, pv⟩ := p
      by_cases hp : pk = k
      · rw [aset, if_pos hp]
        rcases List.mem_cons.mp h with h | h
        · exfalso; rw [h] at hne; exact hne hp
        · exact List.mem_cons_of_mem _ h
      · rw [aset, if_neg hp]
        rcases List.mem_cons.mp h with h | h
        · exact h ▸ List.mem_cons_self _ _
        · exact List.mem_cons_of_mem _ (ih h)

theorem aset_self_mem {κ α : Type} [DecidableEq κ] (l : List (κ × α)) (k : κ)
    (v : α) : (k, v) ∈ aset l k v :=
  alookup_mem _ _ _ (alookup_aset_self l k v)

theorem aset_split {κ α : Type} [DecidableEq κ] (l : List (κ × α)) (k : κ) (v : α) :
    (k ∉ l.map Prod.fst ∧ aset l k v = l ++ [(k, v)])
    ∨ ∃ l1 w l2, l = l1 ++ (k, w) :: l2 ∧ aset l k v = l1 ++ (k, v) :: l2
        ∧ k ∉ l1.map Prod.fst := by
  induction l with
  | nil => exact Or.inl ⟨by simp, rfl⟩
  | cons p rest ih =>
      obtain ⟨pk, pv⟩ := p
      by_cases hp : pk = k
      · refine Or.inr ⟨[], pv, rest, ?_, ?_, by simp⟩
        · rw [hp]; rfl
        · rw [aset, if_pos hp]; rfl
      · rcases ih with ⟨h1, h2⟩ | ⟨l1, w, l2, h1, h2, h3⟩
        · refine Or.inl ⟨?_, ?_⟩
          · simp only [List.map_cons, List.mem_cons]
            rintro (h | h)
            · exact hp h.symm
            · exact h1 h
          · rw [aset, if_neg hp, h2]; rfl
        · refine Or.inr ⟨(pk, pv) :: l1, w, l2, by rw [h1]; rfl, ?_, ?_⟩
          · rw [aset, if_neg hp, h2]; rfl
          · simp only [List.map_cons, List.mem_cons]
            rintro (h | h)
            · exact hp h.symm
            · exact h3 h

theorem alookup_aerase_ne {κ α : Type} [DecidableEq κ] (l : List (κ × α))
    (k k' : κ) (h : k' ≠ k) : alookup (aerase l k) k' = alookup l k' := by
  induction l with
  | nil => rfl
  | cons p rest ih =>
      obtain ⟨pk, pv⟩ := p
      by_cases hp : pk = k
      · rw [aerase, if_pos hp, alookup, if_neg (by rw [hp]; exact fun hh => h hh.symm)]
      · rw [aerase, if_neg hp, alookup, alookup]
        by_cases hk : pk = k'
        · rw [if_pos hk, if_pos hk]
        · rw [if_neg hk, if_neg hk, ih]

theorem minPhiGt_mem (phi : List (String × Int)) (t1 : Option Int) (v : Int)
    (hv : minPhiGt phi t1 = some v) : v ∈ phi.map Prod.snd := by
  cases t1 with
  | none => simp [minPhiGt] at hv
  | some t =>
      simp only [minPhiGt] at hv
      cases hfil : (phi.map Prod.snd).filter (fun v => decide (t < v)) with
      | nil => rw [hfil] at hv; cases hv
      | cons w ws =>
          rw [hfil] at hv
          simp only [Option.some.injEq] at hv
          have hmem : v ∈ w :: ws := by
            rcases foldl_min_mem ws w with h | h
            · rw [← hv, h]; exact List.mem_cons_self _ _
            · rw [← hv]; exact List.mem_cons_of_mem _ h
          exact List.mem_of_mem_filter (hfil ▸ hmem)

theorem foldl_schedule_const {β : Type} (f : SchedState → β → SchedState)
    (hf : ∀ s b, (f s b).schedule = s.schedule) (l : List β) (s : SchedState) :
    (l.foldl f s).schedule = s.schedule := by
  induction l generalizing s with
  | nil => rfl
  | cons b rest ih => rw [List.foldl_cons, ih, hf]

theorem completeOne_schedule (C : Ctx) (s : SchedState)
    (r : (String × Int) × (Int × Nat)) : (completeOne C s r).schedule = s.schedule := by
  unfold completeOne
  dsimp only
  refine foldl_schedule_const _ ?_ _ _
  intro s2 b
  rfl

theorem advance_schedule (C : Ctx) (t1 : Option Int) (s : SchedState) :
    (advance C t1 s).schedule = s.schedule := by
  unfold advance
  exact foldl_schedule_const _ (fun s b => completeOne_schedule C s b) _ _

theorem schedP_periodicStep (C : Ctx) (P : ScheduleEntry → Prop)
    (hP : ∀ n c t, P ⟨n, t, t + execOf C.g n, c, t⟩) (t : Int) (n : String)
    (s : SchedState) (hs : ∀ e ∈ s.schedule, P e) :
    ∀ e ∈ (periodicStep C t n s).schedule, P e := by
  unfold periodicStep
  cases s.available_cores with
  | nil => exact hs
  | cons a rest =>
      intro e he
      simp only at he
      rcases List.mem_append.mp he with he | he
      · exact hs e he
      · rcases List.mem_singleton.mp he with rfl
        exact hP n _ t

theorem schedP_runPeriodicNow (C : Ctx) (P : ScheduleEntry → Prop)
    (hP : ∀ n c t, P ⟨n, t, t + execOf C.g n, c, t⟩) (t : Int) (l : List String)
    (s : SchedState) (hs : ∀ e ∈ s.schedule, P e) :
    ∀ e ∈ (runPeriodicNow C t l s).schedule, P e := by
  induction l generalizing s with
  | nil => exact hs
  | cons n rest ih =>
      exact ih (periodicStep C t n s) (schedP_periodicStep C P hP t n s hs)

theorem schedP_eventDispatch (C : Ctx) (P : ScheduleEntry → Prop)
    (hP : ∀ n c t, P ⟨n, t, t + execOf C.g n, c, t⟩) (t : Int) (n : String)
    (core : Nat) (s : SchedState) (hs : ∀ e ∈ s.schedule, P e) :
    ∀ e ∈ (eventDispatch C t n core s).schedule, P e := by
  unfold eventDispatch
  intro e he
  simp only at he
  split at he
  all_goals
    rcases List.mem_append.mp he with he | he
  · exact hs e he
  · rcases List.mem_singleton.mp he with rfl
    exact hP n core t
  · exact hs e he
  · rcases List.mem_singleton.mp he with rfl
    exact hP n core t

theorem schedP_runEventsAux (C : Ctx) (P : ScheduleEntry → Prop)
    (hP : ∀ n c t, P ⟨n, t, t + execOf C.g n, c, t⟩) (t : Int) (na : Option Int)
    (l : List String) (savail : List Nat) (s : SchedState)
    (hs : ∀ e ∈ s.schedule, P e) :
    ∀ e ∈ (runEventsAux C t na l savail s).1.schedule, P e := by
  induction l generalizing savail s with
  | nil => exact hs
  | cons n rest ih =>
      cases savail with
      | nil => rw [runEventsAux]; exact hs
      | cons core srest =>
          rw [runEventsAux]
          simp only
          split
          · exact hs
          · cases na with
            | some nav =>
                simp only
                split
                · exact ih _ _ hs
                · exact ih _ _ (schedP_eventDispatch C P hP t n core _ hs)
            | none =>
                exact ih _ _ (schedP_eventDispatch C P hP t n core _ hs)

theorem schedP_iterate (C : Ctx) (P : ScheduleEntry → Prop)
    (hP : ∀ n c t, P ⟨n, t, t + execOf C.g n, c, t⟩) (s : SchedState)
    (hs : ∀ e ∈ s.schedule, P e) : ∀ e ∈ (iterate C s).schedule, P e := by
  unfold iterate
  cases htau : s.tau with
  | none => exact hs
  | some t =>
      simp only
      cases htau1 : (if get_event_at_tau C s t = [] ∧ C.num_cores ≤ 1
          then s.next_active else some t) with
      | none =>
          rw [advance_schedule]
          split
          · exact hs
          · exact hs
      | some t1 =>
          simp only
          rw [advance_schedule]
          simp only
          refine schedP_runEventsAux C P hP t1 _ _ _ _ ?_
          refine schedP_runPeriodicNow C P hP t1 _ _ ?_
          split
          · exact hs
          · exact hs

theorem schedP_loop (C : Ctx) (P : ScheduleEntry → Prop)
    (hP : ∀ n c t, P ⟨n, t, t + execOf C.g n, c, t⟩) (fuel : Nat) (s : SchedState)
    (hs : ∀ e ∈ s.schedule, P e) : ∀ e ∈ (loop C fuel s).schedule, P e := by
  induction fuel generalizing s with
  | zero => exact hs
  | succ k ih =>
      rw [loop]
      split
      · exact ih _ (schedP_iterate C P hP s hs)
      · exact hs

theorem schedP_runState (g : Graph) (num_cores : Nat) (sp ap : String)
    (I : Option Int) (P : ScheduleEntry → Prop)
    (hP : ∀ n c t, P ⟨n, t, t + execOf g n, c, t⟩) :
    ∀ e ∈ (runState g num_cores sp ap I).schedule, P e := by
  unfold runState
  exact schedP_loop (mkCtx g num_cores sp ap I) P hP _ _ (by intro e he; cases he)

theorem coresOf_aset_subset (l : List ((String × Int) × (Int × Nat)))
    (key : String × Int) (f : Int) (c : Nat) (x : Nat)
    (hx : x ∈ coresOf (aset l key (f, c))) : x = c ∨ x ∈ coresOf l := by
  induction l with
  | nil =>
      rcases List.mem_singleton.mp hx with rfl
      exact Or.inl rfl
  | cons p rest ih =>
      obtain ⟨pk, pv⟩ := p
      by_cases hp : pk = key
      · rw [aset, if_pos hp] at hx
        rcases List.mem_cons.mp hx with rfl | hx
        · exact Or.inl rfl
        · exact Or.inr (List.mem_cons_of_mem _ hx)
      · rw [aset, if_neg hp] at hx
        rcases List.mem_cons.mp hx with rfl | hx
        · exact Or.inr (List.mem_cons_self _ _)
        · rcases ih hx with h | h
          · exact Or.inl h
          · exact Or.inr (List.mem_cons_of_mem _ h)

theorem coresOf_aset_nodup (l : List ((String × Int) × (Int × Nat)))
    (key : String × Int) (f : Int) (c : Nat) (hc : c ∉ coresOf l)
    (hnd : (coresOf l).Nodup) : (coresOf (aset l key (f, c))).Nodup := by
  induction l with
  | nil => simp [aset, coresOf]
  | cons p rest ih =>
      obtain ⟨pk, pv⟩ := p
      have htail : (coresOf rest).Nodup := (List.nodup_cons.mp hnd).2
      have hhead : pv.2 ∉ coresOf rest := (List.nodup_cons.mp hnd).1
      have hc_rest : c ∉ coresOf rest := fun hh => hc (List.mem_cons_of_mem _ hh)
      have hc_head : c ≠ pv.2 := fun hh => hc (hh ▸ List.mem_cons_self _ _)
      by_cases hp : pk = key
      · rw [aset, if_pos hp]
        exact List.nodup_cons.mpr ⟨hc_rest, htail⟩
      · rw [aset, if_neg hp]
        refine List.nodup_cons.mpr ⟨?_, ih hc_rest htail⟩
        intro hh
        rcases coresOf_aset_subset rest key f c pv.2 hh with h | h
        · exact hc_head h.symm
        · exact hhead h

theorem coresOf_aset_replaced (l : List ((String × Int) × (Int × Nat)))
    (key : String × Int) (f : Int) (c : Nat) (f1 : Int) (c1 : Nat)
    (hlk : alookup l key = some (f1, c1)) (hnd : (coresOf l).Nodup)
    (hne : c1 ≠ c) : c1 ∉ coresOf (aset l key (f, c)) := by
  induction l with
  | nil => cases hlk
  | cons p rest ih =>
      obtain ⟨pk, pv⟩ := p
      have htail : (coresOf rest).Nodup := (List.nodup_cons.mp hnd).2
      have hhead : pv.2 ∉ coresOf rest := (List.nodup_cons.mp hnd).1
      by_cases hp : pk = key
      · rw [alookup, if_pos hp] at hlk
        cases hlk
        rw [aset, if_pos hp]
        intro hh
        rcases List.mem_cons.mp hh with h | h
        · exact hne h
        · exact hhead h
      · rw [alookup, if_neg hp] at hlk
        rw [aset, if_neg hp]
        intro hh
        rcases List.mem_cons.mp hh with h | h
        · have h2 : c1 ∈ coresOf rest :=
            List.mem_map_of_mem (fun r => r.2.2) (alookup_mem _ _ _ hlk)
          have h3 : pv.2 = c1 := by simpa using h.symm
          exact hhead (h3 ▸ h2)
        · exact ih hlk htail h

theorem list_get_append_left {α : Type} (l1 l2 : List α) (k : Nat)
    (h1 : k < l1.length) (hk : k < (l1 ++ l2).length) :
    (l1 ++ l2).get ⟨k, hk⟩ = l1.get ⟨k, h1⟩ := by
  induction l1 generalizing k with
  | nil => cases h1
  | cons x xs ih =>
      cases k with
      | zero => rfl
      | succ j =>
          have hj : j < xs.length := Nat.lt_of_succ_lt_succ h1
          have hk2 : j < (xs ++ l2).length := by
            simp only [List.cons_append, List.length_cons] at hk
            omega
          exact ih j hj hk2

theorem list_get_append_last {α : Type} (l1 : List α) (a : α)
    (hk : l1.length < (l1 ++ [a]).length) :
    (l1 ++ [a]).get ⟨l1.length, hk⟩ = a := by
  induction l1 with
  | nil => rfl
  | cons x xs ih => exact ih (by simp)

theorem mid_of_fields_eq (C : Ctx) (t1 : Int) (s s2 : SchedState)
    (h1 : s2.running = s.running) (h2 : s2.idle_cores = s.idle_cores)
    (h3 : s2.available_cores = s.available_cores) (h4 : s2.phi = s.phi)
    (h5 : s2.schedule = s.schedule) (hm : Mid C t1 s) : Mid C t1 s2 := by
  constructor
  · exact hm.t0
  · rw [h1]; exact hm.fin_ge
  · rw [h1]; exact hm.run_key_nodup
  · rw [runCores, h1]; exact hm.run_core_nodup
  · rw [h1]; exact hm.run_lt
  · rw [h2]; exact hm.idle_nodup
  · rw [h2]; exact hm.idle_lt
  · rw [h1, h2]; exact hm.idle_disj
  · rw [h3]; exact hm.avail_nodup
  · rw [h3]; exact hm.avail_lt
  · rw [h1, h3]; exact hm.avail_disj
  · rw [h4]; exact hm.phi_nodup
  · rw [h4]; exact hm.phi_nonneg
  · rw [h4]; exact hm.phi_periodic
  · rw [h4, h5]; exact hm.phi_count
  · rw [h5]; exact hm.sched_fin
  · rw [h5]; exact hm.sched_start0
  · rw [h5]; exact hm.sched_core_lt
  · rw [h5, h2, h3, runCores, h1]; exact hm.sched_link
  · rw [h5]; exact hm.disj
  · rw [h5]; exact hm.periodic_start

theorem dispatch_mid (C : Ctx) (t1 : Int) (n : String) (core : Nat)
    (s : SchedState) (phi2 : List (String × Int)) (hm : Mid C t1 s)
    (hcore : core ∈ s.available_cores)
    (hex : 0 ≤ execOf C.g n)
    (hp_nodup : (phi2.map Prod.fst).Nodup)
    (hp_nonneg : ∀ pr ∈ phi2, 0 ≤ pr.2)
    (hp_periodic : ∀ pr ∈ phi2, typeOf C.g pr.1 = "periodic")
    (hp_count : ∀ pr ∈ phi2,
      (periodOf C.g pr.1) *
        (((s.schedule ++ [(⟨n, t1, t1 + execOf C.g n, core, t1⟩ :
          ScheduleEntry)]).filter (fun e => e.runnable = pr.1)).length : Int) ≤ pr.2)
    (hp_start : typeOf C.g n = "periodic" →
      (periodOf C.g n) *
        ((s.schedule.filter (fun e => e.runnable = n)).length : Int) ≤ t1) :
    Mid C t1 (dispatchState s phi2 n t1 (execOf C.g n) core) := by
  have hcore_not_run : core ∉ runCores s := by
    intro hh
    rcases List.mem_map.mp hh with ⟨r, hr, hrc⟩
    exact hm.avail_disj r hr (hrc ▸ hcore)
  have hcore_lt : core < C.num_cores := hm.avail_lt core hcore
  refine ⟨hm.t0, ?_, ?_, ?_, ?_, ?_, ?_, ?_, ?_, ?_, ?_,
    hp_nodup, hp_nonneg, hp_periodic, hp_count, ?_, ?_, ?_, ?_, ?_, ?_⟩
  · -- fin_ge
    intro r hr
    rcases mem_aset_elim _ _ _ r hr with rfl | hr2
    · simpa using hex
    · exact hm.fin_ge r hr2
  · -- run_key_nodup
    exact keys_aset_nodup _ _ _ hm.run_key_nodup
  · -- run_core_nodup
    exact coresOf_aset_nodup _ _ _ _ hcore_not_run hm.run_core_nodup
  · -- run_lt
    intro r hr
    rcases mem_aset_elim _ _ _ r hr with rfl | hr2
    · exact hcore_lt
    · exact hm.run_lt r hr2
  · -- idle_nodup
    exact hm.idle_nodup.erase core
  · -- idle_lt
    intro c hc
    exact hm.idle_lt c (List.mem_of_mem_erase hc)
  · -- idle_disj
    intro r hr
    rcases mem_aset_elim _ _ _ r hr with rfl | hr2
    · simp only
      intro hh
      exact ((hm.idle_nodup.mem_erase_iff).mp hh).1 rfl
    · exact fun hh => hm.idle_disj r hr2 (List.mem_of_mem_erase hh)
  · -- avail_nodup
    exact hm.avail_nodup.erase core
  · -- avail_lt
    intro c hc
    exact hm.avail_lt c (List.mem_of_mem_erase hc)
  · -- avail_disj
    intro r hr
    rcases mem_aset_elim _ _ _ r hr with rfl | hr2
    · simp only
      intro hh
      exact ((hm.avail_nodup.mem_erase_iff).mp hh).1 rfl
    · exact fun hh => hm.avail_disj r hr2 (List.mem_of_mem_erase hh)
  · -- sched_fin
    intro e he
    rcases List.mem_append.mp he with he | he
    · exact hm.sched_fin e he
    · rcases List.mem_singleton.mp he with rfl
      rfl
  · -- sched_start0
    intro e he
    rcases List.mem_append.mp he with he | he
    · exact hm.sched_start0 e he
    · rcases List.mem_singleton.mp he with rfl
      exact hm.t0
  · -- sched_core_lt
    intro e he
    rcases List.mem_append.mp he with he | he
    · exact hm.sched_core_lt e he
    · rcases List.mem_singleton.mp he with rfl
      exact hcore_lt
  · -- sched_link
    intro e he
    rcases List.mem_append.mp he with he | he
    · rcases hm.sched_link e he with h | ⟨r, hr, hrc, hrf⟩ | ⟨h1, h2, h3⟩
      · exact Or.inl h
      · by_cases hkey : r.1 = (n, t1)
        · refine Or.inr (Or.inr ⟨?_, ?_, ?_⟩)
          · intro hh
            exact hm.idle_disj r hr (hrc ▸ List.mem_of_mem_erase hh)
          · intro hh
            exact hm.avail_disj r hr (hrc ▸ List.mem_of_mem_erase hh)
          · have hlk : alookup s.running (n, t1) = some r.2 := by
              rw [← hkey]
              exact alookup_of_mem_nodup _ _ _ hm.run_key_nodup
                (by rw [Prod.mk.eta]; exact hr)
            have hne : r.2.2 ≠ core := fun hh =>
              hm.avail_disj r hr (hh ▸ hcore)
            have := coresOf_aset_replaced s.running (n, t1)
              (t1 + execOf C.g n) core r.2.1 r.2.2
              (by rw [Prod.mk.eta]; exact hlk) hm.run_core_nodup hne
            rw [← hrc]
            exact this
        · exact Or.inr (Or.inl ⟨r, mem_aset_preserve _ _ _ r hr hkey, hrc, hrf⟩)
      · refine Or.inr (Or.inr ⟨?_, ?_, ?_⟩)
        · exact fun hh => h1 (List.mem_of_mem_erase hh)
        · exact fun hh => h2 (List.mem_of_mem_erase hh)
        · intro hh
          rcases coresOf_aset_subset _ _ _ _ _ hh with h | h
          · exact h2 (h ▸ hcore)
          · exact h3 h
    · rcases List.mem_singleton.mp he with rfl
      exact Or.inr (Or.inl ⟨((n, t1), (t1 + execOf C.g n, core)),
        aset_self_mem _ _ _, rfl, rfl⟩)
  · -- disj
    refine List.pairwise_append.mpr ⟨hm.disj, List.pairwise_singleton _ _, ?_⟩
    intro e1 he1 e2 he2 hcores
    rcases List.mem_singleton.mp he2 with rfl
    simp only at hcores
    rcases hm.sched_link e1 he1 with h | ⟨r, hr, hrc, hrf⟩ | ⟨h1, h2, h3⟩
    · intro x
      simp only
      omega
    · exfalso
      exact hm.avail_disj r hr (hrc.trans hcores ▸ hcore)
    · exfalso
      exact h2 (hcores ▸ hcore)
  · -- periodic_start
    intro m hma k
    simp only [dispatchState]
    intro hk
    by_cases hmn : m = n
    · subst hmn
      have hfil : ((s.schedule ++ [(⟨m, t1, t1 + execOf C.g m, core, t1⟩ :
          ScheduleEntry)]).filter (fun e => e.runnable = m)) =
          (s.schedule.filter (fun e => e.runnable = m)) ++
            [⟨m, t1, t1 + execOf C.g m, core, t1⟩] := by
        rw [List.filter_append]
        simp
      rw [List.get_of_eq hfil]
      have hk2 : k < (s.schedule.filter (fun e => e.runnable = m)).length + 1 := by
        rw [hfil, List.length_append, List.length_singleton] at hk
        exact hk
      by_cases hklt : k < (s.schedule.filter (fun e => e.runnable = m)).length
      · rw [list_get_append_left _ _ k hklt]
        exact hm.periodic_start m hma k hklt
      · have hkeq : k = (s.schedule.filter (fun e => e.runnable = m)).length := by
          omega
        subst hkeq
        rw [list_get_append_last]
        exact hp_start hma
    · have hfil : ((s.schedule ++ [(⟨n, t1, t1 + execOf C.g n, core, t1⟩ :
          ScheduleEntry)]).filter (fun e => e.runnable = m)) =
          (s.schedule.filter (fun e => e.runnable = m)) := by
        rw [List.filter_append]
        have hne : ¬ n = m := fun hh => hmn hh.symm
        simp [hne]
      rw [List.get_of_eq hfil]
      have hk2 := hfil ▸ hk
      exact hm.periodic_start m hma k hk2

theorem execOf_nonneg (g : Graph) (hex : ExecNonneg g) (n : String) :
    0 ≤ execOf g n := by
  unfold execOf
  cases h : alookup g n with
  | none => simp
  | some props =>
      simpa using hex (n, props) (alookup_mem _ _ _ h)

theorem mem_aerase_ne {κ α : Type} [DecidableEq κ] (l : List (κ × α)) (k : κ)
    (pr : κ × α) (hnd : (l.map Prod.fst).Nodup) (h : pr ∈ aerase l k) :
    pr.1 ≠ k := by
  induction l with
  | nil => cases h
  | cons p rest ih =>
      obtain ⟨pk, pv⟩ := p
      simp only [List.map_cons, List.nodup_cons] at hnd
      by_cases hp : pk = k
      · rw [aerase, if_pos hp] at h
        intro hc
        exact hnd.1 (hp ▸ hc ▸ List.mem_map_of_mem Prod.fst h)
      · rw [aerase, if_neg hp] at h
        rcases List.mem_cons.mp h with rfl | h2
        · exact hp
        · exact ih hnd.2 h2

theorem periodicStep_phi_lookup (C : Ctx) (t : Int) (n : String) (s : SchedState)
    (m : String) (hmn : m ≠ n) :
    alookup (periodicStep C t n s).phi m = alookup s.phi m := by
  unfold periodicStep
  cases s.available_cores with
  | nil => exact alookup_aset_ne _ _ _ _ hmn
  | cons a rest =>
      simp only
      split
      · exact alookup_aset_ne _ _ _ _ hmn
      · exact alookup_aerase_ne _ _ _ hmn

theorem periodicStep_mid (C : Ctx) (t1 : Int) (n : String) (s : SchedState)
    (hm : Mid C t1 s) (hex : ExecNonneg C.g)
    (hn : alookup s.phi n = some t1) :
    Mid C t1 (periodicStep C t1 n s) := by
  have hnmem : (n, t1) ∈ s.phi := alookup_mem _ _ _ hn
  have hntype : typeOf C.g n = "periodic" := hm.phi_periodic _ hnmem
  have hncount : periodOf C.g n *
      ((s.schedule.filter (fun e => e.runnable = n)).length : Int) ≤ t1 := by
    simpa using hm.phi_count _ hnmem
  have hexe : 0 ≤ execOf C.g n := execOf_nonneg C.g hex n
  cases havail : s.available_cores with
  | nil =>
      have htx : 0 ≤ deferDelta s.running t1 := by
        cases hrun : s.running with
        | nil => simp [deferDelta]
        | cons r rest =>
            simp only [deferDelta]
            have hge : t1 ≤ (rest.map (fun q => q.2.1)).foldl min r.2.1 := by
              rcases foldl_min_mem (rest.map (fun q => q.2.1)) r.2.1 with h | h
              · rw [h]
                exact hm.fin_ge r (hrun ▸ List.mem_cons_self _ _)
              · rcases List.mem_map.mp h with ⟨q, hq, hqv⟩
                rw [← hqv]
                exact hm.fin_ge q (hrun ▸ List.mem_cons_of_mem _ hq)
            omega
      simp only [periodicStep, havail]
      constructor
      · exact hm.t0
      · exact hm.fin_ge
      · exact hm.run_key_nodup
      · exact hm.run_core_nodup
      · exact hm.run_lt
      · exact hm.idle_nodup
      · exact hm.idle_lt
      · exact hm.idle_disj
      · rw [← havail]; exact hm.avail_nodup
      · rw [← havail]; exact hm.avail_lt
      · rw [← havail]; exact hm.avail_disj
      · exact keys_aset_nodup _ _ _ hm.phi_nodup
      · intro pr hpr
        rcases mem_aset_elim _ _ _ pr hpr with rfl | h2
        · simp only
          have := hm.t0
          omega
        · exact hm.phi_nonneg pr h2
      · intro pr hpr
        rcases mem_aset_elim _ _ _ pr hpr with rfl | h2
        · exact hntype
        · exact hm.phi_periodic pr h2
      · intro pr hpr
        rcases mem_aset_elim _ _ _ pr hpr with rfl | h2
        · dsimp only
          omega
        · exact hm.phi_count pr h2
      · exact hm.sched_fin
      · exact hm.sched_start0
      · exact hm.sched_core_lt
      · rw [← havail]; exact hm.sched_link
      · exact hm.disj
      · exact hm.periodic_start
  | cons a rest =>
      have hcore : listMinD (a :: rest) 0 ∈ s.available_cores := by
        rw [havail]
        exact listMinD_mem _ _ (List.cons_ne_nil a rest)
      have hTieq : periodOf C.g n *
          ((s.schedule.filter (fun e => e.runnable = n)).length : Int) ≤ t1 :=
        hncount
      by_cases hTi : 0 < periodOf C.g n ∧ t1 + periodOf C.g n < C.horizon
      · have hd := dispatch_mid C t1 n (listMinD (a :: rest) 0) s
          (aset s.phi n (t1 + periodOf C.g n)) hm hcore hexe
          (keys_aset_nodup _ _ _ hm.phi_nodup)
          (by
            intro pr hpr
            rcases mem_aset_elim _ _ _ pr hpr with rfl | h2
            · simp only
              have := hm.t0
              omega
            · exact hm.phi_nonneg pr h2)
          (by
            intro pr hpr
            rcases mem_aset_elim _ _ _ pr hpr with rfl | h2
            · exact hntype
            · exact hm.phi_periodic pr h2)
          (by
            intro pr hpr
            rcases mem_aset_nodup _ _ _ pr hm.phi_nodup hpr with rfl | ⟨h2, h3⟩
            · simp only
              have hfil : ((s.schedule ++ [(⟨n, t1, t1 + execOf C.g n,
                  listMinD (a :: rest) 0, t1⟩ : ScheduleEntry)]).filter
                    (fun e => e.runnable = n)).length =
                  (s.schedule.filter (fun e => e.runnable = n)).length + 1 := by
                rw [List.filter_append]
                simp
              rw [hfil]
              push_cast
              nlinarith [hTieq, hTi.1]
            · have hfil : ((s.schedule ++ [(⟨n, t1, t1 + execOf C.g n,
                  listMinD (a :: rest) 0, t1⟩ : ScheduleEntry)]).filter
                    (fun e => e.runnable = pr.1)).length =
                  (s.schedule.filter (fun e => e.runnable = pr.1)).length := by
                rw [List.filter_append]
                have hne : ¬ n = pr.1 := fun hh => h3 hh.symm
                simp [hne]
              rw [hfil]
              exact hm.phi_count pr h2)
          (fun _ => hTieq)
        refine mid_of_fields_eq C t1 _ _ ?_ ?_ ?_ ?_ ?_ hd
        all_goals simp only [periodicStep, havail, dispatchState, if_pos hTi]
      · have hd := dispatch_mid C t1 n (listMinD (a :: rest) 0) s
          (aerase s.phi n) hm hcore hexe
          (keys_aerase_nodup _ _ hm.phi_nodup)
          (fun pr hpr => hm.phi_nonneg pr (mem_aerase _ _ _ hpr))
          (fun pr hpr => hm.phi_periodic pr (mem_aerase _ _ _ hpr))
          (by
            intro pr hpr
            have h2 := mem_aerase _ _ _ hpr
            have h3 : pr.1 ≠ n := mem_aerase_ne _ _ _ hm.phi_nodup hpr
            have hfil : ((s.schedule ++ [(⟨n, t1, t1 + execOf C.g n,
                listMinD (a :: rest) 0, t1⟩ : ScheduleEntry)]).filter
                  (fun e => e.runnable = pr.1)).length =
                (s.schedule.filter (fun e => e.runnable = pr.1)).length := by
              rw [List.filter_append]
              have hne : ¬ n = pr.1 := fun hh => h3 hh.symm
              simp [hne]
            rw [hfil]
            exact hm.phi_count pr h2)
          (fun _ => hTieq)
        refine mid_of_fields_eq C t1 _ _ ?_ ?_ ?_ ?_ ?_ hd
        all_goals simp only [periodicStep, havail, dispatchState, if_neg hTi]

theorem eventDispatch_mid (C : Ctx) (t1 : Int) (n : String) (core : Nat)
    (s1 : SchedState) (hm : Mid C t1 s1) (hex : ExecNonneg C.g)
    (hcore : core ∈ s1.available_cores) (htype : typeOf C.g n ≠ "periodic") :
    Mid C t1 (eventDispatch C t1 n core s1) := by
  have hd := dispatch_mid C t1 n core s1 s1.phi hm hcore
    (execOf_nonneg C.g hex n) hm.phi_nodup hm.phi_nonneg hm.phi_periodic
    (by
      intro pr hpr
      have hprt := hm.phi_periodic pr hpr
      have hne : pr.1 ≠ n := fun hh => htype (hh ▸ hprt)
      have hfil : ((s1.schedule ++ [(⟨n, t1, t1 + execOf C.g n, core, t1⟩ :
          ScheduleEntry)]).filter (fun e => e.runnable = pr.1)).length =
          (s1.schedule.filter (fun e => e.runnable = pr.1)).length := by
        rw [List.filter_append]
        have hne2 : ¬ n = pr.1 := fun hh => hne hh.symm
        simp [hne2]
      rw [hfil]
      exact hm.phi_count pr hpr)
    (fun hh => absurd hh htype)
  refine mid_of_fields_eq C t1 _ _ ?_ ?_ ?_ ?_ ?_ hd
  all_goals simp only [eventDispatch, dispatchState, if_pos hcore]

theorem runEventsAux_mid (C : Ctx) (t1 : Int) (na : Option Int) (l : List String)
    (savail : List Nat) (s : SchedState) (hm : Mid C t1 s) (hex : ExecNonneg C.g)
    (hsub : ∀ c ∈ savail, c ∈ s.available_cores) (hnd : savail.Nodup)
    (hl : ∀ m ∈ l, typeOf C.g m ≠ "periodic") :
    Mid C t1 (runEventsAux C t1 na l savail s).1 := by
  induction l generalizing savail s with
  | nil => exact hm
  | cons n rest ih =>
      have hm1 : Mid C t1 { s with startT := aset s.startT n t1 } :=
        mid_of_fields_eq C t1 s _ rfl rfl rfl rfl rfl hm
      cases savail with
      | nil =>
          rw [runEventsAux]
          exact hm1
      | cons core srest =>
          rw [runEventsAux]
          simp only
          have hcore1 : core ∈ ({ s with startT := aset s.startT n t1 } :
              SchedState).available_cores :=
            hsub core (List.mem_cons_self _ _)
          have hsub2 : ∀ c ∈ srest,
              c ∈ (eventDispatch C t1 n core
                { s with startT := aset s.startT n t1 }).available_cores := by
            intro c hc
            have hcs : c ∈ s.available_cores := hsub c (List.mem_cons_of_mem _ hc)
            have hcne : c ≠ core := by
              intro hcc
              exact (List.nodup_cons.mp hnd).1 (hcc ▸ hc)
            simp only [eventDispatch, if_pos hcore1]
            exact (List.mem_erase_of_ne hcne).mpr hcs
          have hdisp := eventDispatch_mid C t1 n core _ hm1 hex hcore1
            (hl n (List.mem_cons_self _ _))
          split
          · exact hm1
          · cases na with
            | some nav =>
                simp only
                split
                · refine ih _ _ ?_ ?_ hnd ?_
                  · exact mid_of_fields_eq C t1
                      { s with startT := aset s.startT n t1 } _
                      rfl rfl rfl rfl rfl hm1
                  · exact fun c hc => hsub c hc
                  · exact fun m hmr => hl m (List.mem_cons_of_mem _ hmr)
                · refine ih _ _ hdisp ?_ (List.Nodup.of_cons hnd) ?_
                  · exact hsub2
                  · exact fun m hmr => hl m (List.mem_cons_of_mem _ hmr)
            | none =>
                refine ih _ _ hdisp ?_ (List.Nodup.of_cons hnd) ?_
                · exact hsub2
                · exact fun m hmr => hl m (List.mem_cons_of_mem _ hmr)

theorem runPeriodicNow_mid (C : Ctx) (t1 : Int) (l : List String) (s : SchedState)
    (hm : Mid C t1 s) (hex : ExecNonneg C.g) (hlnd : l.Nodup)
    (hl : ∀ m ∈ l, alookup s.phi m = some t1) :
    Mid C t1 (runPeriodicNow C t1 l s) := by
  induction l generalizing s with
  | nil => exact hm
  | cons n rest ih =>
      have hn := hl n (List.mem_cons_self _ _)
      have hm2 := periodicStep_mid C t1 n s hm hex hn
      rw [runPeriodicNow]
      refine ih _ hm2 (List.Nodup.of_cons hlnd) ?_
      intro m hmr
      have hmn : m ≠ n := by
        intro hc
        exact (List.nodup_cons.mp hlnd).1 (hc ▸ hmr)
      rw [periodicStep_phi_lookup C t1 n s m hmn]
      exact hl m (List.mem_cons_of_mem _ hmr)

theorem foldl_field_const {β γ : Type} (f : SchedState → β → SchedState)
    (g : SchedState → γ) (hf : ∀ s b, g (f s b) = g s) (l : List β)
    (s : SchedState) : g (l.foldl f s) = g s := by
  induction l generalizing s with
  | nil => rfl
  | cons b rest ih => rw [List.foldl_cons, ih, hf]

theorem completeOne_phi (C : Ctx) (s : SchedState)
    (r : (String × Int) × (Int × Nat)) : (completeOne C s r).phi = s.phi := by
  unfold completeOne
  dsimp only
  refine foldl_field_const _ (fun st => st.phi) ?_ _ _
  intro st b
  rfl

theorem completeOne_running (C : Ctx) (s : SchedState)
    (r : (String × Int) × (Int × Nat)) : (completeOne C s r).running = s.running := by
  unfold completeOne
  dsimp only
  refine foldl_field_const _ (fun st => st.running) ?_ _ _
  intro st b
  rfl

theorem completeOne_idle (C : Ctx) (s : SchedState)
    (r : (String × Int) × (Int × Nat)) :
    (completeOne C s r).idle_cores =
      if r.2.2 ∈ s.idle_cores then s.idle_cores
      else sortLe natLeB (s.idle_cores ++ [r.2.2]) := by
  unfold completeOne
  dsimp only
  refine foldl_field_const _ (fun st => st.idle_cores) ?_ _ _
  intro st b
  rfl

theorem completeOne_avail (C : Ctx) (s : SchedState)
    (r : (String × Int) × (Int × Nat)) :
    (completeOne C s r).available_cores =
      if isStatic C then sortLe natLeB (s.available_cores ++ [r.2.2])
      else s.available_cores := by
  unfold completeOne
  dsimp only
  refine foldl_field_const _ (fun st => st.available_cores) ?_ _ _
  intro st b
  rfl

theorem foldlComplete_phi (C : Ctx) (l : List ((String × Int) × (Int × Nat)))
    (s : SchedState) : (l.foldl (completeOne C) s).phi = s.phi :=
  foldl_field_const _ (fun st => st.phi) (completeOne_phi C) l s

theorem foldlComplete_running (C : Ctx) (l : List ((String × Int) × (Int × Nat)))
    (s : SchedState) : (l.foldl (completeOne C) s).running = s.running :=
  foldl_field_const _ (fun st => st.running) (completeOne_running C) l s

theorem foldlComplete_schedule (C : Ctx) (l : List ((String × Int) × (Int × Nat)))
    (s : SchedState) : (l.foldl (completeOne C) s).schedule = s.schedule :=
  foldl_field_const _ (fun st => st.schedule) (completeOne_schedule C) l s

theorem completeFold_facts (C : Ctx) (l : List ((String × Int) × (Int × Nat)))
    (s : SchedState)
    (hcnd : (coresOf l).Nodup)
    (hidle : ∀ r ∈ l, r.2.2 ∉ s.idle_cores)
    (havail : ∀ r ∈ l, r.2.2 ∉ s.available_cores)
    (hlt : ∀ r ∈ l, r.2.2 < C.num_cores)
    (hin : s.idle_cores.Nodup) (han : s.available_cores.Nodup)
    (hil : ∀ c ∈ s.idle_cores, c < C.num_cores)
    (hal : ∀ c ∈ s.available_cores, c < C.num_cores) :
    (l.foldl (completeOne C) s).idle_cores.Nodup
    ∧ (l.foldl (completeOne C) s).available_cores.Nodup
    ∧ (∀ c ∈ (l.foldl (completeOne C) s).idle_cores, c < C.num_cores)
    ∧ (∀ c ∈ (l.foldl (completeOne C) s).available_cores, c < C.num_cores)
    ∧ (∀ x ∈ (l.foldl (completeOne C) s).idle_cores,
        x ∈ s.idle_cores ∨ x ∈ coresOf l)
    ∧ (∀ x ∈ (l.foldl (completeOne C) s).available_cores,
        x ∈ s.available_cores ∨ x ∈ coresOf l) := by
  induction l generalizing s with
  | nil =>
      refine ⟨hin, han, hil, hal, ?_, ?_⟩
      · exact fun x hx => Or.inl hx
      · exact fun x hx => Or.inl hx
  | cons r rest ih =>
      have hrn : r.2.2 ∉ s.idle_cores := hidle r (List.mem_cons_self _ _)
      have hra : r.2.2 ∉ s.available_cores := havail r (List.mem_cons_self _ _)
      have hrl : r.2.2 < C.num_cores := hlt r (List.mem_cons_self _ _)
      have hrrest : r.2.2 ∉ coresOf rest := (List.nodup_cons.mp hcnd).1
      have hidle1 : (completeOne C s r).idle_cores =
          sortLe natLeB (s.idle_cores ++ [r.2.2]) := by
        rw [completeOne_idle, if_neg hrn]
      have hmem_idle1 : ∀ x, x ∈ (completeOne C s r).idle_cores ↔
          (x ∈ s.idle_cores ∨ x = r.2.2) := by
        intro x
        rw [hidle1, mem_sortLe]
        simp
      have hmem_avail1 : ∀ x, x ∈ (completeOne C s r).available_cores →
          x ∈ s.available_cores ∨ x = r.2.2 := by
        intro x hx
        rw [completeOne_avail] at hx
        by_cases hst : isStatic C
        · rw [if_pos hst, mem_sortLe] at hx
          rcases List.mem_append.mp hx with hx | hx
          · exact Or.inl hx
          · exact Or.inr (List.mem_singleton.mp hx)
        · rw [if_neg hst] at hx
          exact Or.inl hx
      have hmem_avail1b : ∀ x, x ∈ s.available_cores →
          x ∈ (completeOne C s r).available_cores := by
        intro x hx
        rw [completeOne_avail]
        by_cases hst : isStatic C
        · rw [if_pos hst, mem_sortLe]
          exact List.mem_append.mpr (Or.inl hx)
        · rw [if_neg hst]
          exact hx
      have h1 : (completeOne C s r).idle_cores.Nodup := by
        rw [hidle1]
        refine nodup_sortLe _ _ ?_
        rw [List.nodup_append]
        refine ⟨hin, List.nodup_singleton _, ?_⟩
        intro a ha hb
        rcases List.mem_singleton.mp hb with rfl
        exact hrn ha
      have h2 : (completeOne C s r).available_cores.Nodup := by
        rw [completeOne_avail]
        by_cases hst : isStatic C
        · rw [if_pos hst]
          refine nodup_sortLe _ _ ?_
          rw [List.nodup_append]
          refine ⟨han, List.nodup_singleton _, ?_⟩
          intro a ha hb
          rcases List.mem_singleton.mp hb with rfl
          exact hra ha
        · rw [if_neg hst]
          exact han
      have h3 : ∀ c ∈ (completeOne C s r).idle_cores, c < C.num_cores := by
        intro c hc
        rcases (hmem_idle1 c).mp hc with h | rfl
        · exact hil c h
        · exact hrl
      have h4 : ∀ c ∈ (completeOne C s r).available_cores, c < C.num_cores := by
        intro c hc
        rcases hmem_avail1 c hc with h | rfl
        · exact hal c h
        · exact hrl
      have hidle2 : ∀ q ∈ rest, q.2.2 ∉ (completeOne C s r).idle_cores := by
        intro q hq hmem
        rcases (hmem_idle1 q.2.2).mp hmem with h | h
        · exact hidle q (List.mem_cons_of_mem _ hq) h
        · exact hrrest (h ▸ List.mem_map_of_mem (fun r => r.2.2) hq)
      have havail2 : ∀ q ∈ rest, q.2.2 ∉ (completeOne C s r).available_cores := by
        intro q hq hmem
        rcases hmem_avail1 q.2.2 hmem with h | h
        · exact havail q (List.mem_cons_of_mem _ hq) h
        · exact hrrest (h ▸ List.mem_map_of_mem (fun r => r.2.2) hq)
      obtain ⟨g1, g2, g3, g4, g5, g6⟩ := ih (completeOne C s r)
        (List.nodup_cons.mp hcnd).2 hidle2 havail2
        (fun q hq => hlt q (List.mem_cons_of_mem _ hq)) h1 h2 h3 h4
      refine ⟨g1, g2, g3, g4, ?_, ?_⟩
      · intro x hx
        rcases g5 x hx with h | h
        · rcases (hmem_idle1 x).mp h with h | rfl
          · exact Or.inl h
          · exact Or.inr (List.mem_cons_self _ _)
        · exact Or.inr (List.mem_cons_of_mem _ h)
      · intro x hx
        rcases g6 x hx with h | h
        · rcases hmem_avail1 x h with h | rfl
          · exact Or.inl h
          · exact Or.inr (List.mem_cons_self _ _)
        · exact Or.inr (List.mem_cons_of_mem _ h)

theorem running_singleton (C : Ctx) (s : SchedState)
    (hknd : (s.running.map Prod.fst).Nodup) (hcnd : (runCores s).Nodup)
    (hlt : ∀ r ∈ s.running, r.2.2 < C.num_cores) (hone : C.num_cores = 1) :
    s.running = [] ∨ ∃ r, s.running = [r] := by
  cases hrun : s.running with
  | nil => exact Or.inl rfl
  | cons q rest =>
      cases hrest : rest with
      | nil => exact Or.inr ⟨q, rfl⟩
      | cons q2 rest2 =>
          exfalso
          have hq : q ∈ s.running := hrun ▸ List.mem_cons_self _ _
          have hq2 : q2 ∈ s.running := by
            rw [hrun, hrest]
            exact List.mem_cons_of_mem _ (List.mem_cons_self _ _)
          have h1 : q.2.2 = 0 := by have := hlt q hq; omega
          have h2 : q2.2.2 = 0 := by have := hlt q2 hq2; omega
          have hcores := hcnd
          rw [runCores, hrun, hrest] at hcores
          simp only [coresOf, List.map_cons, List.nodup_cons] at hcores
          exact hcores.1 (by rw [h1, ← h2]; exact List.mem_cons_self _ _)

theorem advance_tau (C : Ctx) (t1 : Option Int) (s : SchedState) :
    (advance C t1 s).tau = oMin (minFin s.running) (minPhiGt s.phi t1) := rfl

theorem advance_next_active (C : Ctx) (t1 : Option Int) (s : SchedState) :
    (advance C t1 s).next_active = minPhiGt s.phi t1 := rfl

theorem advance_running (C : Ctx) (t1 : Option Int) (s : SchedState) :
    (advance C t1 s).running = s.running.filter (fun r =>
      ¬ some r.2.1 = oMin (minFin s.running) (minPhiGt s.phi t1)) := rfl

theorem advance_idle (C : Ctx) (t1 : Option Int) (s : SchedState) :
    (advance C t1 s).idle_cores = ((s.running.filter (fun r =>
      some r.2.1 = oMin (minFin s.running) (minPhiGt s.phi t1))).foldl
        (completeOne C) s).idle_cores := rfl

theorem advance_avail (C : Ctx) (t1 : Option Int) (s : SchedState) :
    (advance C t1 s).available_cores = ((s.running.filter (fun r =>
      some r.2.1 = oMin (minFin s.running) (minPhiGt s.phi t1))).foldl
        (completeOne C) s).available_cores := rfl

theorem advance_phi (C : Ctx) (t1 : Option Int) (s : SchedState) :
    (advance C t1 s).phi = s.phi := by
  have h : (advance C t1 s).phi = ((s.running.filter (fun r =>
      some r.2.1 = oMin (minFin s.running) (minPhiGt s.phi t1))).foldl
        (completeOne C) s).phi := rfl
  rw [h, foldlComplete_phi]

theorem advance_inv (C : Ctx) (τ0 : Int) (t1 : Option Int) (s : SchedState)
    (hm : Mid C τ0 s) (hnc : 1 ≤ C.num_cores)
    (ht1 : t1 = some τ0 ∨ t1 = none) :
    Inv C (advance C t1 s) := by
  have hτ0 : 0 ≤ τ0 := hm.t0
  have hna2v : ∀ v : Int, minPhiGt s.phi t1 = some v → τ0 < v := by
    intro v hv
    rcases ht1 with rfl | rfl
    · exact minPhiGt_gt _ _ _ hv
    · simp [minPhiGt] at hv
  have hnfv : ∀ v : Int, minFin s.running = some v → τ0 ≤ v := by
    intro v hv
    rcases minFin_mem _ _ hv with ⟨r, hr, hrv⟩
    exact hrv ▸ hm.fin_ge r hr
  have htnv : ∀ v : Int,
      oMin (minFin s.running) (minPhiGt s.phi t1) = some v → τ0 ≤ v := by
    intro v hv
    rcases oMin_cases (minFin s.running) (minPhiGt s.phi t1) with hc | hc
    · exact hnfv v (by rw [← hc]; exact hv)
    · exact le_of_lt (hna2v v (by rw [← hc]; exact hv))
  have hcompsub : ∀ r ∈ s.running.filter (fun r => some r.2.1 =
      oMin (minFin s.running) (minPhiGt s.phi t1)), r ∈ s.running :=
    fun r hr => List.mem_of_mem_filter hr
  have hremsub : ∀ r ∈ s.running.filter (fun r => ¬ some r.2.1 =
      oMin (minFin s.running) (minPhiGt s.phi t1)), r ∈ s.running :=
    fun r hr => List.mem_of_mem_filter hr
  have hcomp_cores_nd : (coresOf (s.running.filter (fun r => some r.2.1 =
      oMin (minFin s.running) (minPhiGt s.phi t1)))).Nodup :=
    ((List.filter_sublist _).map
      (fun r : (String × Int) × (Int × Nat) => r.2.2)).nodup hm.run_core_nodup
  have hcomp_core_run : ∀ x, x ∈ coresOf (s.running.filter (fun r =>
      some r.2.1 = oMin (minFin s.running) (minPhiGt s.phi t1))) →
      x ∈ runCores s := by
    intro x hx
    rcases List.mem_map.mp hx with ⟨r, hr, hrx⟩
    exact hrx ▸ List.mem_map_of_mem _ (hcompsub r hr)
  obtain ⟨g1, g2, g3, g4, g5, g6⟩ := completeFold_facts C
    (s.running.filter (fun r => some r.2.1 =
      oMin (minFin s.running) (minPhiGt s.phi t1))) s
    hcomp_cores_nd
    (fun r hr => hm.idle_disj r (hcompsub r hr))
    (fun r hr => hm.avail_disj r (hcompsub r hr))
    (fun r hr => hm.run_lt r (hcompsub r hr))
    hm.idle_nodup hm.avail_nodup hm.idle_lt hm.avail_lt
  have hrem_not_comp_core : ∀ r ∈ s.running.filter (fun r => ¬ some r.2.1 =
      oMin (minFin s.running) (minPhiGt s.phi t1)),
      r.2.2 ∉ coresOf (s.running.filter (fun r => some r.2.1 =
        oMin (minFin s.running) (minPhiGt s.phi t1))) := by
    intro r hr hmem
    rcases List.mem_map.mp hmem with ⟨q, hq, hqr⟩
    have hqreq : q = r := List.inj_on_of_nodup_map hm.run_core_nodup
      (hcompsub q hq) (hremsub r hr) hqr
    subst hqreq
    have h1 := List.of_mem_filter hq
    have h2 := List.of_mem_filter hr
    simp only [decide_eq_true_eq] at h1 h2
    exact h2 h1
  constructor
  · -- tau0
    intro t ht
    rw [advance_tau] at ht
    have := htnv t ht
    omega
  · -- na_ge
    rw [advance_tau, advance_next_active]
    exact oMin_le_right _ _
  · -- fin_ge
    intro r hr
    rw [advance_running] at hr
    rw [advance_tau]
    cases hnf : minFin s.running with
    | none =>
        rw [(minFin_eq_none _).mp hnf] at hr
        cases hr
    | some w =>
        have hwfin : w ≤ r.2.1 := minFin_le _ r (hremsub r hr) w hnf
        cases hph : minPhiGt s.phi t1 with
        | none =>
            simpa [oMin, oLe] using hwfin
        | some v =>
            simp only [oMin, oLe]
            have := min_le_left v w
            omega
  · -- na_fin
    intro hone r hr
    rw [advance_running] at hr
    rw [advance_next_active]
    rcases running_singleton C s hm.run_key_nodup hm.run_core_nodup
      hm.run_lt hone with hnil | ⟨q, hq⟩
    · rw [hnil] at hr
      cases hr
    · rw [hq] at hr
      have hrq : r = q :=
        List.mem_singleton.mp (List.mem_of_mem_filter hr)
      subst hrq
      have hne := List.of_mem_filter hr
      simp only [decide_eq_true_eq] at hne
      cases hph : minPhiGt s.phi t1 with
      | none =>
          exfalso
          apply hne
          rw [hph]
          rfl
      | some v =>
          by_cases hvf : v < r.2.1
          · simpa [oLe] using le_of_lt hvf
          · exfalso
            apply hne
            rw [hph]
            show some r.2.1 = oMin (some r.2.1) (some v)
            simp only [oMin, Option.some.injEq]
            omega
  · -- run_key_nodup
    rw [advance_running]
    exact ((List.filter_sublist _).map Prod.fst).nodup hm.run_key_nodup
  · -- run_core_nodup
    rw [runCores, advance_running]
    exact ((List.filter_sublist _).map
      (fun r : (String × Int) × (Int × Nat) => r.2.2)).nodup hm.run_core_nodup
  · -- run_lt
    intro r hr
    rw [advance_running] at hr
    exact hm.run_lt r (hremsub r hr)
  · -- idle_nodup
    rw [advance_idle]
    exact g1
  · -- idle_lt
    intro c hc
    rw [advance_idle] at hc
    exact g3 c hc
  · -- idle_disj
    intro r hr hmem
    rw [advance_running] at hr
    rw [advance_idle] at hmem
    rcases g5 _ hmem with h | h
    · exact hm.idle_disj r (hremsub r hr) h
    · exact hrem_not_comp_core r hr h
  · -- avail_nodup
    rw [advance_avail]
    exact g2
  · -- avail_lt
    intro c hc
    rw [advance_avail] at hc
    exact g4 c hc
  · -- avail_disj
    intro r hr hmem
    rw [advance_running] at hr
    rw [advance_avail] at hmem
    rcases g6 _ hmem with h | h
    · exact hm.avail_disj r (hremsub r hr) h
    · exact hrem_not_comp_core r hr h
  · -- phi_nodup
    rw [advance_phi]
    exact hm.phi_nodup
  · -- phi_nonneg
    rw [advance_phi]
    exact hm.phi_nonneg
  · -- phi_periodic
    rw [advance_phi]
    exact hm.phi_periodic
  · -- phi_count
    rw [advance_phi, advance_schedule]
    exact hm.phi_count
  · -- sched_fin
    rw [advance_schedule]
    exact hm.sched_fin
  · -- sched_start0
    rw [advance_schedule]
    exact hm.sched_start0
  · -- sched_core_lt
    rw [advance_schedule]
    exact hm.sched_core_lt
  · -- sched_link
    rw [advance_schedule, advance_tau, advance_idle, advance_avail,
      runCores, advance_running]
    intro e he
    rcases hm.sched_link e he with h | ⟨r, hr, hrc, hrf⟩ | ⟨h1, h2, h3⟩
    · left
      cases htn : oMin (minFin s.running) (minPhiGt s.phi t1) with
      | none => simp [oLe]
      | some v =>
          have := htnv v htn
          simp only [oLe]
          omega
    · by_cases hrcomp : (some r.2.1 =
          oMin (minFin s.running) (minPhiGt s.phi t1))
      · left
        rw [← hrcomp, ← hrf]
        simp [oLe]
      · right
        left
        refine ⟨r, ?_, hrc, hrf⟩
        rw [List.mem_filter]
        exact ⟨hr, by simpa using hrcomp⟩
    · right
      right
      refine ⟨?_, ?_, ?_⟩
      · intro hmem
        rcases g5 _ hmem with h | h
        · exact h1 h
        · exact h3 (hcomp_core_run _ h)
      · intro hmem
        rcases g6 _ hmem with h | h
        · exact h2 h
        · exact h3 (hcomp_core_run _ h)
      · intro hmem
        rcases List.mem_map.mp hmem with ⟨q, hq, hqc⟩
        exact h3 (hqc ▸ List.mem_map_of_mem _ (hremsub q hq))
  · -- disj
    rw [advance_schedule]
    exact hm.disj
  · -- periodic_start
    rw [advance_schedule]
    exact hm.periodic_start

theorem mid_of_inv (C : Ctx) (s : SchedState) (t t1 : Int) (hinv : Inv C s)
    (htau : s.tau = some t) (htt1 : t ≤ t1)
    (hfin : ∀ r ∈ s.running, t1 ≤ r.2.1) : Mid C t1 s := by
  have ht0 : 0 ≤ t := hinv.tau0 t htau
  refine ⟨by omega, hfin, hinv.run_key_nodup, hinv.run_core_nodup, hinv.run_lt,
    hinv.idle_nodup, hinv.idle_lt, hinv.idle_disj, hinv.avail_nodup,
    hinv.avail_lt, hinv.avail_disj, hinv.phi_nodup, hinv.phi_nonneg,
    hinv.phi_periodic, hinv.phi_count, hinv.sched_fin, hinv.sched_start0,
    hinv.sched_core_lt, ?_, hinv.disj, hinv.periodic_start⟩
  intro e he
  rcases hinv.sched_link e he with h | h | h
  · left
    rw [htau] at h
    have h2 : e.finish_time ≤ t := by simpa [oLe] using h
    omega
  · exact Or.inr (Or.inl h)
  · exact Or.inr (Or.inr h)

theorem mid_dynamic_realloc (C : Ctx) (t1 : Int) (s : SchedState)
    (elig : List String) (hm : Mid C t1 s) :
    Mid C t1 { s with available_cores := dynamic_allocation s.idle_cores elig } := by
  have hsub : ∀ c ∈ dynamic_allocation s.idle_cores elig, c ∈ s.idle_cores := by
    intro c hc
    exact List.take_subset _ _ hc
  refine ⟨hm.t0, hm.fin_ge, hm.run_key_nodup, hm.run_core_nodup, hm.run_lt,
    hm.idle_nodup, hm.idle_lt, hm.idle_disj, ?_, ?_, ?_,
    hm.phi_nodup, hm.phi_nonneg, hm.phi_periodic, hm.phi_count,
    hm.sched_fin, hm.sched_start0, hm.sched_core_lt, ?_, hm.disj,
    hm.periodic_start⟩
  · exact (List.take_sublist _ _).nodup hm.idle_nodup
  · exact fun c hc => hm.idle_lt c (hsub c hc)
  · exact fun r hr hc => hm.idle_disj r hr (hsub _ hc)
  · intro e he
    rcases hm.sched_link e he with h | h | ⟨h1, h2, h3⟩
    · exact Or.inl h
    · exact Or.inr (Or.inl h)
    · exact Or.inr (Or.inr ⟨h1, fun hc => h1 (hsub _ hc), h3⟩)

theorem mem_order_eligible (eligible : List String) (g : Graph)
    (etaM : List (String × Int)) (policy : String) (x : String) :
    x ∈ order_eligible eligible g etaM policy ↔ x ∈ eligible := by
  unfold order_eligible
  split
  · exact mem_sortLe _ _ _
  · exact mem_sortLe _ _ _

theorem nodup_order_eligible (eligible : List String) (g : Graph)
    (etaM : List (String × Int)) (policy : String) (h : eligible.Nodup) :
    (order_eligible eligible g etaM policy).Nodup := by
  unfold order_eligible
  split
  · exact nodup_sortLe _ _ h
  · exact nodup_sortLe _ _ h

theorem mem_get_periodic (s : SchedState) (t1 : Int) (m : String)
    (h : m ∈ get_periodic_at_tau s t1) : (m, t1) ∈ s.phi := by
  unfold get_periodic_at_tau at h
  rw [mem_sortLe] at h
  rcases List.mem_map.mp h with ⟨pr, hpr, hpr1⟩
  have h2 := List.of_mem_filter hpr
  simp only [decide_eq_true_eq] at h2
  have h3 := List.mem_of_mem_filter hpr
  rw [← hpr1, ← h2, Prod.mk.eta]
  exact h3

theorem nodup_get_periodic (s : SchedState) (t1 : Int)
    (h : (s.phi.map Prod.fst).Nodup) : (get_periodic_at_tau s t1).Nodup := by
  unfold get_periodic_at_tau
  exact nodup_sortLe _ _ (((List.filter_sublist _).map Prod.fst).nodup h)

theorem get_event_types (C : Ctx) (s : SchedState) (t : Int)
    (hgnd : (C.g.map Prod.fst).Nodup) (m : String)
    (hm : m ∈ get_event_at_tau C s t) : typeOf C.g m ≠ "periodic" := by
  unfold get_event_at_tau at hm
  rcases List.mem_filterMap.mp hm with ⟨np, hnp, heq⟩
  by_cases hc : np.2.rtype ≠ "periodic"
      ∧ (predsOf C np.1).all (fun p => 0 < (alookup s.tokens (p, np.1)).getD 0)
      ∧ (alookup s.startT np.1).getD 0 ≤ t
  · rw [if_pos hc] at heq
    obtain rfl : np.1 = m := Option.some.inj heq
    have hlk : alookup C.g np.1 = some np.2 := by
      refine alookup_of_mem_nodup _ _ _ hgnd ?_
      rw [Prod.mk.eta]
      exact hnp
    unfold typeOf
    rw [hlk]
    simpa using hc.1
  · rw [if_neg hc] at heq
    cases heq

theorem mid_dynamic_realloc2 (C : Ctx) (t1 : Int) (s s2 : SchedState)
    (elig : List String) (hm : Mid C t1 s)
    (h1 : s2.running = s.running) (h2 : s2.idle_cores = s.idle_cores)
    (h3 : s2.available_cores = dynamic_allocation s.idle_cores elig)
    (h4 : s2.phi = s.phi) (h5 : s2.schedule = s.schedule) : Mid C t1 s2 :=
  mid_of_fields_eq C t1
    { s with available_cores := dynamic_allocation s.idle_cores elig } s2
    h1 h2 h3 h4 h5 (mid_dynamic_realloc C t1 s elig hm)

theorem dispatch_core_inv (C : Ctx) (t1 : Int) (op oe : List String)
    (s1 st2 : SchedState)
    (hex : ExecNonneg C.g) (hnc : 1 ≤ C.num_cores)
    (h1 : st2.running = (runEventsAux C t1 (runPeriodicNow C t1 op s1).next_active
      oe (sortLe natLeB (runPeriodicNow C t1 op s1).available_cores)
      (runPeriodicNow C t1 op s1)).1.running)
    (h2 : st2.idle_cores = (runEventsAux C t1 (runPeriodicNow C t1 op s1).next_active
      oe (sortLe natLeB (runPeriodicNow C t1 op s1).available_cores)
      (runPeriodicNow C t1 op s1)).1.idle_cores)
    (h3 : st2.available_cores = (runEventsAux C t1
      (runPeriodicNow C t1 op s1).next_active
      oe (sortLe natLeB (runPeriodicNow C t1 op s1).available_cores)
      (runPeriodicNow C t1 op s1)).1.available_cores)
    (h4 : st2.phi = (runEventsAux C t1 (runPeriodicNow C t1 op s1).next_active
      oe (sortLe natLeB (runPeriodicNow C t1 op s1).available_cores)
      (runPeriodicNow C t1 op s1)).1.phi)
    (h5 : st2.schedule = (runEventsAux C t1 (runPeriodicNow C t1 op s1).next_active
      oe (sortLe natLeB (runPeriodicNow C t1 op s1).available_cores)
      (runPeriodicNow C t1 op s1)).1.schedule)
    (hm1 : Mid C t1 s1) (hopnd : op.Nodup)
    (hop : ∀ m ∈ op, alookup s1.phi m = some t1)
    (hoe : ∀ m ∈ oe, typeOf C.g m ≠ "periodic") :
    Inv C (advance C (some t1) st2) := by
  have hm2 := runPeriodicNow_mid C t1 op s1 hm1 hex hopnd hop
  have hm3 := runEventsAux_mid C t1 (runPeriodicNow C t1 op s1).next_active oe
    (sortLe natLeB (runPeriodicNow C t1 op s1).available_cores)
    (runPeriodicNow C t1 op s1) hm2 hex
    (fun c hc => (mem_sortLe _ _ _).mp hc)
    (nodup_sortLe _ _ hm2.avail_nodup) hoe
  have hm4 := mid_of_fields_eq C t1 _ st2 h1 h2 h3 h4 h5 hm3
  exact advance_inv C t1 (some t1) st2 hm4 hnc (Or.inl rfl)

theorem iterate_inv (C : Ctx) (s : SchedState) (hinv : Inv C s)
    (hnc : 1 ≤ C.num_cores) (hex : ExecNonneg C.g)
    (hgnd : (C.g.map Prod.fst).Nodup) : Inv C (iterate C s) := by
  unfold iterate
  cases htau : s.tau with
  | none => exact hinv
  | some t =>
      dsimp only
      have ht0 : 0 ≤ t := hinv.tau0 t htau
      have hfint : ∀ r ∈ s.running, t ≤ r.2.1 := by
        intro r hr
        have h := hinv.fin_ge r hr
        rw [htau] at h
        simpa [oLe] using h
      by_cases hjump : get_event_at_tau C s t = [] ∧ C.num_cores ≤ 1
      · rw [if_pos hjump]
        cases hna : s.next_active with
        | none =>
            dsimp only
            have hmid : Mid C t s := mid_of_inv C s t t hinv htau le_rfl hfint
            split
            · exact advance_inv C t none _
                (mid_dynamic_realloc2 C t s _ [] hmid rfl rfl rfl rfl rfl)
                hnc (Or.inr rfl)
            · exact advance_inv C t none s hmid hnc (Or.inr rfl)
        | some nav =>
            dsimp only
            have hone : C.num_cores = 1 := le_antisymm hjump.2 hnc
            have htnav : t ≤ nav := by
              have h := hinv.na_ge
              rw [htau, hna] at h
              simpa [oLe] using h
            have hfin : ∀ r ∈ s.running, nav ≤ r.2.1 := by
              intro r hr
              have h := hinv.na_fin hone r hr
              rw [hna] at h
              simpa [oLe] using h
            have hmid : Mid C nav s := mid_of_inv C s t nav hinv htau htnav hfin
            refine dispatch_core_inv C _ _ _ _ _ hex hnc rfl rfl rfl rfl rfl
              ?_ ?_ ?_ ?_
            · split
              · exact mid_dynamic_realloc2 C nav s _ _ hmid rfl rfl rfl rfl rfl
              · exact hmid
            · exact nodup_order_eligible _ _ _ _
                (nodup_get_periodic s nav hinv.phi_nodup)
            · intro m hmem
              have hval := alookup_of_mem_nodup _ _ _ hinv.phi_nodup
                (mem_get_periodic s nav m ((mem_order_eligible _ _ _ _ _).mp hmem))
              split
              · exact hval
              · exact hval
            · intro m hmem
              exact get_event_types C s t hgnd m
                ((mem_order_eligible _ _ _ _ _).mp hmem)
      · rw [if_neg hjump]
        dsimp only
        have hmid : Mid C t s := mid_of_inv C s t t hinv htau le_rfl hfint
        refine dispatch_core_inv C _ _ _ _ _ hex hnc rfl rfl rfl rfl rfl
          ?_ ?_ ?_ ?_
        · split
          · exact mid_dynamic_realloc2 C t s _ _ hmid rfl rfl rfl rfl rfl
          · exact hmid
        · exact nodup_order_eligible _ _ _ _
            (nodup_get_periodic s t hinv.phi_nodup)
        · intro m hmem
          have hval := alookup_of_mem_nodup _ _ _ hinv.phi_nodup
            (mem_get_periodic s t m ((mem_order_eligible _ _ _ _ _).mp hmem))
          split
          · exact hval
          · exact hval
        · intro m hmem
          exact get_event_types C s t hgnd m
            ((mem_order_eligible _ _ _ _ _).mp hmem)

theorem loop_inv (C : Ctx) (fuel : Nat) (s : SchedState) (hinv : Inv C s)
    (hnc : 1 ≤ C.num_cores) (hex : ExecNonneg C.g)
    (hgnd : (C.g.map Prod.fst).Nodup) : Inv C (loop C fuel s) := by
  induction fuel generalizing s with
  | zero => exact hinv
  | succ n ih =>
      rw [loop]
      split
      · exact ih _ (iterate_inv C s hinv hnc hex hgnd)
      · exact hinv

theorem initFold_facts (g : Graph) (l : List (String × RunnableProps))
    (acc : List (String × Int) × List (String × Int) × List (String × Int))
    (hnd : (acc.1.map Prod.fst).Nodup)
    (h0 : ∀ pr ∈ acc.1, pr.2 = 0)
    (hp : ∀ pr ∈ acc.1, ∃ np ∈ g, np.1 = pr.1 ∧ np.2.rtype = "periodic")
    (hsub : ∀ np ∈ l, np ∈ g) :
    (((l.foldl (fun acc np =>
        if np.2.rtype = "periodic" ∧ 0 < np.2.period then
          (aset acc.1 np.1 0, acc.2.1, acc.2.2)
        else
          (acc.1, aset acc.2.1 np.1 0, aset acc.2.2 np.1 0)) acc).1.map
            Prod.fst).Nodup)
    ∧ (∀ pr ∈ (l.foldl (fun acc np =>
        if np.2.rtype = "periodic" ∧ 0 < np.2.period then
          (aset acc.1 np.1 0, acc.2.1, acc.2.2)
        else
          (acc.1, aset acc.2.1 np.1 0, aset acc.2.2 np.1 0)) acc).1, pr.2 = 0)
    ∧ (∀ pr ∈ (l.foldl (fun acc np =>
        if np.2.rtype = "periodic" ∧ 0 < np.2.period then
          (aset acc.1 np.1 0, acc.2.1, acc.2.2)
        else
          (acc.1, aset acc.2.1 np.1 0, aset acc.2.2 np.1 0)) acc).1,
        ∃ np ∈ g, np.1 = pr.1 ∧ np.2.rtype = "periodic") := by
  induction l generalizing acc with
  | nil => exact ⟨hnd, h0, hp⟩
  | cons np rest ih =>
      simp only [List.foldl_cons]
      by_cases hc : np.2.rtype = "periodic" ∧ 0 < np.2.period
      · rw [if_pos hc]
        refine ih _ ?_ ?_ ?_ (fun q hq => hsub q (List.mem_cons_of_mem _ hq))
        · exact keys_aset_nodup _ _ _ hnd
        · intro pr hpr
          rcases mem_aset_elim _ _ _ pr hpr with rfl | h2
          · rfl
          · exact h0 pr h2
        · intro pr hpr
          rcases mem_aset_elim _ _ _ pr hpr with rfl | h2
          · exact ⟨np, hsub np (List.mem_cons_self _ _), rfl, hc.1⟩
          · exact hp pr h2
      · rw [if_neg hc]
        exact ih _ hnd h0 hp (fun q hq => hsub q (List.mem_cons_of_mem _ hq))

theorem initState_avail (C : Ctx) :
    (initState C).available_cores =
      if isStatic C then
        static_allocation C.num_cores (compute_parallelism_bounds C.g C.num_cores).1
          (compute_parallelism_bounds C.g C.num_cores).2
      else rangeCores C.num_cores := rfl

theorem static_allocation_nodup (num_cores : Nat) (p q : Int) :
    (static_allocation num_cores p q).Nodup := List.nodup_range _

theorem static_allocation_lt (num_cores : Nat) (p q : Int) (hnc : 1 ≤ num_cores)
    (c : Nat) (hc : c ∈ static_allocation num_cores p q) : c < num_cores := by
  unfold static_allocation rangeCores at hc
  have h := List.mem_range.mp hc
  omega

theorem initState_inv (C : Ctx) (hnc : 1 ≤ C.num_cores)
    (hgnd : (C.g.map Prod.fst).Nodup) : Inv C (initState C) := by
  obtain ⟨hnd, h0, hp⟩ := initFold_facts C.g C.g ([], [], [])
    List.nodup_nil (fun pr hpr => absurd hpr (List.not_mem_nil pr))
    (fun pr hpr => absurd hpr (List.not_mem_nil pr)) (fun np h => h)
  have hsched : (initState C).schedule = [] := rfl
  have hphi : (initState C).phi =
      (C.g.foldl (fun (acc : List (String × Int) × List (String × Int) ×
          List (String × Int)) np =>
        if np.2.rtype = "periodic" ∧ 0 < np.2.period then
          (aset acc.1 np.1 0, acc.2.1, acc.2.2)
        else
          (acc.1, aset acc.2.1 np.1 0, aset acc.2.2 np.1 0)) ([], [], [])).1 := rfl
  constructor
  · intro t ht
    have h2 : (0 : Int) = t := Option.some.inj ht
    omega
  · exact oLe_refl (some 0)
  · intro r hr
    exact absurd hr (List.not_mem_nil r)
  · intro _ r hr
    exact absurd hr (List.not_mem_nil r)
  · exact List.nodup_nil
  · exact List.nodup_nil
  · intro r hr
    exact absurd hr (List.not_mem_nil r)
  · exact List.nodup_range _
  · intro c hc
    exact List.mem_range.mp hc
  · intro r hr
    exact absurd hr (List.not_mem_nil r)
  · rw [initState_avail]
    split
    · exact static_allocation_nodup _ _ _
    · exact List.nodup_range _
  · intro c hc
    rw [initState_avail] at hc
    rcases Decidable.em (isStatic C = true) with hst | hst
    · rw [if_pos hst] at hc
      exact static_allocation_lt _ _ _ hnc c hc
    · rw [if_neg hst] at hc
      exact List.mem_range.mp hc
  · intro r hr
    exact absurd hr (List.not_mem_nil r)
  · rw [hphi]
    exact hnd
  · rw [hphi]
    intro pr hpr
    rw [h0 pr hpr]
  · rw [hphi]
    intro pr hpr
    rcases hp pr hpr with ⟨np, hnp, hk, ht⟩
    have hlk : alookup C.g pr.1 = some np.2 := by
      refine alookup_of_mem_nodup _ _ _ hgnd ?_
      rw [← hk, Prod.mk.eta]
      exact hnp
    unfold typeOf
    rw [hlk]
    simpa using ht
  · intro pr hpr
    rw [hsched]
    simp only [List.filter_nil, List.length_nil, Nat.cast_zero, mul_zero]
    rw [hphi] at hpr
    rw [h0 pr hpr]
  · intro e he
    rw [hsched] at he
    exact absurd he (List.not_mem_nil e)
  · intro e he
    rw [hsched] at he
    exact absurd he (List.not_mem_nil e)
  · intro e he
    rw [hsched] at he
    exact absurd he (List.not_mem_nil e)
  · intro e he
    rw [hsched] at he
    exact absurd he (List.not_mem_nil e)
  · rw [hsched]
    exact List.Pairwise.nil
  · intro n hn k hk
    exfalso
    rw [hsched] at hk
    simp only [List.filter_nil, List.length_nil] at hk
    omega

theorem runState_inv (g : Graph) (num_cores : Nat) (sp ap : String)
    (I : Option Int) (hnc : 1 ≤ num_cores) (hex : ExecNonneg g)
    (hgnd : (g.map Prod.fst).Nodup) :
    Inv (mkCtx g num_cores sp ap I) (runState g num_cores sp ap I) :=
  loop_inv (mkCtx g num_cores sp ap I) (fuelOf g I) _
    (initState_inv (mkCtx g num_cores sp ap I) hnc hgnd) hnc hex hgnd

theorem invStatic_periodicStep (C : Ctx) (t : Int) (n : String) (s : SchedState)
    (h : InvStatic C s) : InvStatic C (periodicStep C t n s) := by
  unfold periodicStep
  cases havail : s.available_cores with
  | nil =>
      dsimp only
      exact ⟨fun c hc => absurd hc (List.not_mem_nil c), h.run_lt, h.sched_lt⟩
  | cons a rest =>
      dsimp only
      have hcore : listMinD (a :: rest) 0 < callocOf C := by
        have hm : listMinD (a :: rest) 0 ∈ s.available_cores := by
          rw [havail]
          exact listMinD_mem _ _ (List.cons_ne_nil a rest)
        exact h.avail_lt _ hm
      refine ⟨?_, ?_, ?_⟩
      · intro c hc
        have hc2 : c ∈ s.available_cores := by
          rw [havail]
          exact List.mem_of_mem_erase hc
        exact h.avail_lt c hc2
      · intro r hr
        rcases mem_aset_elim _ _ _ r hr with rfl | h2
        · exact hcore
        · exact h.run_lt r h2
      · intro e he
        rcases List.mem_append.mp he with he | he
        · exact h.sched_lt e he
        · rcases List.mem_singleton.mp he with rfl
          exact hcore

theorem invStatic_runPeriodicNow (C : Ctx) (t : Int) (l : List String)
    (s : SchedState) (h : InvStatic C s) :
    InvStatic C (runPeriodicNow C t l s) := by
  induction l generalizing s with
  | nil => exact h
  | cons n rest ih =>
      rw [runPeriodicNow]
      exact ih _ (invStatic_periodicStep C t n s h)

theorem invStatic_eventDispatch (C : Ctx) (t : Int) (n : String) (core : Nat)
    (s1 : SchedState) (h : InvStatic C s1) (hcore : core < callocOf C) :
    InvStatic C (eventDispatch C t n core s1) := by
  unfold eventDispatch
  dsimp only
  split
  · refine ⟨?_, ?_, ?_⟩
    · intro c hc
      exact h.avail_lt c (List.mem_of_mem_erase hc)
    · intro r hr
      rcases mem_aset_elim _ _ _ r hr with rfl | h2
      · exact hcore
      · exact h.run_lt r h2
    · intro e he
      rcases List.mem_append.mp he with he | he
      · exact h.sched_lt e he
      · rcases List.mem_singleton.mp he with rfl
        exact hcore
  · refine ⟨h.avail_lt, ?_, ?_⟩
    · intro r hr
      rcases mem_aset_elim _ _ _ r hr with rfl | h2
      · exact hcore
      · exact h.run_lt r h2
    · intro e he
      rcases List.mem_append.mp he with he | he
      · exact h.sched_lt e he
      · rcases List.mem_singleton.mp he with rfl
        exact hcore

theorem invStatic_runEventsAux (C : Ctx) (t : Int) (na : Option Int)
    (l : List String) (savail : List Nat) (s : SchedState)
    (h : InvStatic C s) (hsav : ∀ c ∈ savail, c < callocOf C) :
    InvStatic C (runEventsAux C t na l savail s).1 := by
  induction l generalizing savail s with
  | nil => exact h
  | cons n rest ih =>
      have h1 : InvStatic C { s with startT := aset s.startT n t } :=
        ⟨h.avail_lt, h.run_lt, h.sched_lt⟩
      cases savail with
      | nil =>
          rw [runEventsAux]
          exact h1
      | cons core srest =>
          rw [runEventsAux]
          simp only
          have hdisp := invStatic_eventDispatch C t n core _ h1
            (hsav core (List.mem_cons_self _ _))
          split
          · exact h1
          · cases na with
            | some nav =>
                simp only
                split
                · refine ih _ _ ?_ hsav
                  exact ⟨h1.avail_lt, h1.run_lt, h1.sched_lt⟩
                · exact ih _ _ hdisp
                    (fun c hc => hsav c (List.mem_cons_of_mem _ hc))
            | none =>
                exact ih _ _ hdisp
                  (fun c hc => hsav c (List.mem_cons_of_mem _ hc))

theorem invStatic_completeOne (C : Ctx) (s : SchedState)
    (r : (String × Int) × (Int × Nat)) (h : InvStatic C s)
    (hr : r.2.2 < callocOf C) : InvStatic C (completeOne C s r) := by
  refine ⟨?_, ?_, ?_⟩
  · intro c hc
    rw [completeOne_avail] at hc
    split at hc
    · rw [mem_sortLe] at hc
      rcases List.mem_append.mp hc with hc | hc
      · exact h.avail_lt c hc
      · rcases List.mem_singleton.mp hc with rfl
        exact hr
    · exact h.avail_lt c hc
  · intro q hq
    rw [completeOne_running] at hq
    exact h.run_lt q hq
  · intro e he
    rw [completeOne_schedule] at he
    exact h.sched_lt e he

theorem invStatic_foldComplete (C : Ctx)
    (l : List ((String × Int) × (Int × Nat))) (s : SchedState)
    (h : InvStatic C s) (hl : ∀ r ∈ l, r.2.2 < callocOf C) :
    InvStatic C (l.foldl (completeOne C) s) := by
  induction l generalizing s with
  | nil => exact h
  | cons r rest ih =>
      rw [List.foldl_cons]
      refine ih _ (invStatic_completeOne C s r h (hl r (List.mem_cons_self _ _)))
        (fun q hq => hl q (List.mem_cons_of_mem _ hq))

theorem invStatic_advance (C : Ctx) (t1 : Option Int) (s : SchedState)
    (h : InvStatic C s) : InvStatic C (advance C t1 s) := by
  have hfold := invStatic_foldComplete C
    (s.running.filter (fun r => some r.2.1 =
      oMin (minFin s.running) (minPhiGt s.phi t1))) s h
    (fun r hr => h.run_lt r (List.mem_of_mem_filter hr))
  refine ⟨?_, ?_, ?_⟩
  · intro c hc
    rw [advance_avail] at hc
    exact hfold.avail_lt c hc
  · intro r hr
    rw [advance_running] at hr
    exact h.run_lt r (List.mem_of_mem_filter hr)
  · intro e he
    rw [advance_schedule] at he
    exact h.sched_lt e he

theorem invStatic_body (C : Ctx) (t1 : Int) (op oe : List String)
    (s1 st2 : SchedState) (h : InvStatic C s1)
    (h1 : st2.available_cores = (runEventsAux C t1
      (runPeriodicNow C t1 op s1).next_active oe
      (sortLe natLeB (runPeriodicNow C t1 op s1).available_cores)
      (runPeriodicNow C t1 op s1)).1.available_cores)
    (h2 : st2.running = (runEventsAux C t1
      (runPeriodicNow C t1 op s1).next_active oe
      (sortLe natLeB (runPeriodicNow C t1 op s1).available_cores)
      (runPeriodicNow C t1 op s1)).1.running)
    (h3 : st2.schedule = (runEventsAux C t1
      (runPeriodicNow C t1 op s1).next_active oe
      (sortLe natLeB (runPeriodicNow C t1 op s1).available_cores)
      (runPeriodicNow C t1 op s1)).1.schedule) :
    InvStatic C (advance C (some t1) st2) := by
  have hp := invStatic_runPeriodicNow C t1 op s1 h
  have he := invStatic_runEventsAux C t1 (runPeriodicNow C t1 op s1).next_active
    oe (sortLe natLeB (runPeriodicNow C t1 op s1).available_cores)
    (runPeriodicNow C t1 op s1) hp
    (fun c hc => hp.avail_lt c ((mem_sortLe _ _ _).mp hc))
  refine invStatic_advance C (some t1) st2 ⟨?_, ?_, ?_⟩
  · rw [h1]
    exact he.avail_lt
  · rw [h2]
    exact he.run_lt
  · rw [h3]
    exact he.sched_lt

theorem invStatic_iterate (C : Ctx) (s : SchedState) (h : InvStatic C s)
    (hnd : isDynamic C = false) : InvStatic C (iterate C s) := by
  have hcond : ¬ (isDynamic C = true) := by
    rw [hnd]
    exact Bool.false_ne_true
  unfold iterate
  cases htau : s.tau with
  | none => exact h
  | some t =>
      dsimp only
      by_cases hjump : get_event_at_tau C s t = [] ∧ C.num_cores ≤ 1
      · rw [if_pos hjump]
        cases hna : s.next_active with
        | none =>
            dsimp only
            rw [if_neg hcond]
            exact invStatic_advance C none s h
        | some nav =>
            dsimp only
            rw [if_neg hcond]
            exact invStatic_body C nav _ _ s _ h rfl rfl rfl
      · rw [if_neg hjump]
        dsimp only
        rw [if_neg hcond]
        exact invStatic_body C t _ _ s _ h rfl rfl rfl

theorem invStatic_loop (C : Ctx) (fuel : Nat) (s : SchedState)
    (h : InvStatic C s) (hnd : isDynamic C = false) :
    InvStatic C (loop C fuel s) := by
  induction fuel generalizing s with
  | zero => exact h
  | succ n ih =>
      rw [loop]
      split
      · exact ih _ (invStatic_iterate C s h hnd)
      · exact h

theorem invStatic_init (C : Ctx) (hst : isStatic C = true) :
    InvStatic C (initState C) := by
  refine ⟨?_, ?_, ?_⟩
  · intro c hc
    rw [initState_avail, if_pos hst] at hc
    unfold static_allocation rangeCores at hc
    have h2 := List.mem_range.mp hc
    exact h2
  · intro r hr
    exact absurd hr (List.not_mem_nil r)
  · intro e he
    exact absurd he (List.not_mem_nil e)

/-- Claim C10 (confirmed): every emitted schedule entry, periodic or event,
has its eligible time equal to its start time, so the per-entry waiting sum
`total_wait_time` is 0 on every emitted schedule; all reported waiting comes
from the separately returned accumulated delay. -/
theorem claim_C10_eligible_eq_start (g : Graph) (num_cores : Nat) (sp ap : String)
    (I : Option Int) :
    (∀ e ∈ (run_main_scheduler g num_cores sp ap I).1,
        e.eligible_time = e.start_time)
    ∧ total_wait_time (run_main_scheduler g num_cores sp ap I).1 = 0 := by
  have h := schedP_runState g num_cores sp ap I
    (fun e => e.eligible_time = e.start_time) (fun n c t => rfl)
  have hsched : (run_main_scheduler g num_cores sp ap I).1 =
      (runState g num_cores sp ap I).schedule := rfl
  constructor
  · rw [hsched]; exact h
  · rw [hsched]
    unfold total_wait_time
    refine List.sum_eq_zero ?_
    intro x hx
    rcases List.mem_map.mp hx with ⟨e, he, hex⟩
    rw [← hex, h e he, sub_self]
    simp

/-- Claim C6 (confirmed): on the single periodic node A with period 5 and
execution time 2, one core, dynamic allocation and I = 3 (horizon 6), the run
emits exactly (A,0,2,core 0) then (A,5,7,core 0) with makespan 7; the second
release instant 5 lies strictly before the horizon although its finish 7 lies
past it. -/
theorem claim_C6_scenario :
    run_main_scheduler graphS5 1 "fcfs" "dynamic" (some 3) =
      ([⟨"A", 0, 2, 0, 0⟩, ⟨"A", 5, 7, 0, 5⟩], 7, 0)
    ∧ (5 : Int) < horizonOf graphS5 (some 3)
    ∧ horizonOf graphS5 (some 3) < 7 := by decide

/-- Claim C1 (counterexample): a malformed input (a dependency naming the
unknown node Z) does not abort the run and does not yield an empty schedule;
`run_main_scheduler` emits entries on it. -/
theorem claim_C1_counterexample :
    ¬ wellFormedInput graphBadDep
    ∧ (run_main_scheduler graphBadDep 1 "fcfs" "dynamic" (some 1)).1 ≠ [] := by
  decide

/-- Claim C1 (amended): `run_main_scheduler` performs no input validation and
raises no structured error; on the malformed graph with the unresolved
dependency it silently drops the unknown edge and emits a complete non-empty
schedule. -/
theorem claim_C1_amended :
    ¬ wellFormedInput graphBadDep
    ∧ run_main_scheduler graphBadDep 1 "fcfs" "dynamic" (some 1) =
        ([⟨"A", 0, 2, 0, 0⟩, ⟨"B", 2, 3, 0, 2⟩], 3, 0) := by decide

/-- Claim C4 (counterexample): with ample cores under PAS, the run on
`graphPrioInv` dispatches the low-priority eligible event Y at a decision
point while the strictly higher-priority eligible event X is left
undispatched, refuting the claim as stated. -/
theorem claim_C4_counterexample :
    ¬ pasAmpleRespectsPriority graphPrioInv 3 "dynamic" (some 2) := by decide

/-- Claim C5 (counterexample): on scenario S5 with one core the makespan (7)
differs from the total dispatched work (4), because the single core idles
between the two periodic releases. -/
theorem claim_C5_counterexample :
    dispatchedWork (run_main_scheduler graphS5 1 "fcfs" "dynamic" (some 3)).1 ≠
      (run_main_scheduler graphS5 1 "fcfs" "dynamic" (some 3)).2.1 := by decide

/-- Claim C3 (confirmed): the scheduling kernel is deterministic; two runs
over equal inputs return identical schedules, makespans and accumulated
delays.  The embedding is a pure function of its inputs, which models the
source faithfully: the source reads no ambient state and every set-ordered
intermediate it uses (the longest-path drain and the parallelism frontier) is
order-independent in its observable results. -/
theorem claim_C3_determinism (g1 g2 : Graph) (n1 n2 : Nat) (sp1 sp2 ap1 ap2 : String)
    (i1 i2 : Option Int) (hg : g1 = g2) (hn : n1 = n2) (hsp : sp1 = sp2)
    (hap : ap1 = ap2) (hi : i1 = i2) :
    run_main_scheduler g1 n1 sp1 ap1 i1 = run_main_scheduler g2 n2 sp2 ap2 i2 := by
  rw [hg, hn, hsp, hap, hi]

/-- Witness for C3 at a concrete input. -/
theorem claim_C3_determinism_witness :
    run_main_scheduler graphS5 1 "fcfs" "dynamic" (some 3) =
      run_main_scheduler graphS5 1 "fcfs" "dynamic" (some 3) :=
  claim_C3_determinism graphS5 graphS5 1 1 "fcfs" "fcfs" "dynamic" "dynamic"
    (some 3) (some 3) rfl rfl rfl rfl rfl

theorem foldl_max_init {α : Type} [LinearOrder α] (xs : List α) (x : α) :
    x ≤ xs.foldl max x := by
  induction xs generalizing x with
  | nil => exact le_refl x
  | cons y ys ih => exact le_trans (le_max_left x y) (ih (max x y))

theorem foldl_max_mem_le {α : Type} [LinearOrder α] (xs : List α) (x a : α)
    (h : a ∈ xs) : a ≤ xs.foldl max x := by
  induction xs generalizing x with
  | nil => cases h
  | cons y ys ih =>
      rcases List.mem_cons.mp h with rfl | h2
      · exact le_trans (le_max_right x a) (foldl_max_init ys (max x a))
      · exact ih _ h2

theorem maxFinish_ge (l : List ScheduleEntry) (e : ScheduleEntry) (he : e ∈ l) :
    e.finish_time ≤ maxFinish l := by
  match l with
  | [] => cases he
  | e0 :: rest =>
      rcases List.mem_cons.mp he with rfl | h2
      · exact foldl_max_init _ _
      · exact foldl_max_mem_le _ _ _ (List.mem_map_of_mem _ h2)

theorem sum_filter_len (l : List (Int × Int))
    (h : ∀ p ∈ l, ¬ p.1 < p.2 → p.2 - p.1 = 0) :
    ((l.filter (fun p => decide (p.1 < p.2))).map (fun p => p.2 - p.1)).sum =
      (l.map (fun p => p.2 - p.1)).sum := by
  induction l with
  | nil => rfl
  | cons p rest ih =>
      by_cases hp : p.1 < p.2
      · rw [List.filter_cons_of_pos (by simpa using hp)]
        simp only [List.map_cons, List.sum_cons]
        rw [ih (fun q hq => h q (List.mem_cons_of_mem _ hq))]
      · rw [List.filter_cons_of_neg (by simpa using hp)]
        simp only [List.map_cons, List.sum_cons]
        rw [ih (fun q hq => h q (List.mem_cons_of_mem _ hq)),
          h p (List.mem_cons_self _ _) hp]
        omega

theorem intervals_sum_le (l : List (Int × Int)) (hi : Int) :
    ∀ lo : Int, lo ≤ hi →
    (∀ p ∈ l, lo ≤ p.1 ∧ p.1 < p.2 ∧ p.2 ≤ hi) →
    l.Pairwise (fun a b => a.1 ≤ b.1) →
    l.Pairwise (fun a b => ∀ x : Int,
      ¬ (a.1 ≤ x ∧ x < a.2 ∧ b.1 ≤ x ∧ x < b.2)) →
    (l.map (fun p => p.2 - p.1)).sum ≤ hi - lo := by
  induction l with
  | nil =>
      intro lo hlohi _ _ _
      simpa using hlohi
  | cons p rest ih =>
      intro lo hlohi hin hsort hdisj
      obtain ⟨hlop, hpp, hphi⟩ := hin p (List.mem_cons_self _ _)
      rcases List.pairwise_cons.mp hsort with ⟨hs1, hs2⟩
      rcases List.pairwise_cons.mp hdisj with ⟨hd1, hd2⟩
      have hrest : ∀ q ∈ rest, p.2 ≤ q.1 := by
        intro q hq
        by_contra hlt
        push_neg at hlt
        obtain ⟨hloq, hqq, hqhi⟩ := hin q (List.mem_cons_of_mem _ hq)
        exact hd1 q hq q.1 ⟨hs1 q hq, hlt, le_refl q.1, hqq⟩
      have hsum := ih p.2 hphi
        (fun q hq => ⟨hrest q hq, (hin q (List.mem_cons_of_mem _ hq)).2⟩)
        hs2 hd2
      simp only [List.map_cons, List.sum_cons]
      omega

theorem strLtList_asymm (a : List Char) : ∀ b : List Char,
    strLtList a b = true → strLtList b a = false := by
  induction a with
  | nil =>
      intro b h
      cases b with
      | nil => simpa [strLtList] using h
      | cons y ys => rfl
  | cons x xs ih =>
      intro b h
      cases b with
      | nil => simp [strLtList] at h
      | cons y ys =>
          rw [strLtList] at h
          rw [strLtList]
          by_cases hxy : x.toNat < y.toNat
          · rw [if_neg (by omega), if_pos hxy]
          · rw [if_neg hxy] at h
            by_cases hyx : y.toNat < x.toNat
            · rw [if_pos hyx] at h
              cases h
            · rw [if_neg hyx] at h
              rw [if_neg (by omega), if_neg (by omega)]
              exact ih ys h

theorem strLeList_trans (a : List Char) : ∀ b c : List Char,
    strLtList b a = false → strLtList c b = false → strLtList c a = false := by
  induction a with
  | nil =>
      intro b c _ _
      cases c with
      | nil => rfl
      | cons z zs => rfl
  | cons x xs ih =>
      intro b c h1 h2
      cases b with
      | nil => simp [strLtList] at h1
      | cons y ys =>
          cases c with
          | nil => simp [strLtList] at h2
          | cons z zs =>
              rw [strLtList] at h1 h2 ⊢
              by_cases hyx : y.toNat < x.toNat
              · rw [if_pos hyx] at h1
                cases h1
              · rw [if_neg hyx] at h1
                by_cases hzy : z.toNat < y.toNat
                · rw [if_pos hzy] at h2
                  cases h2
                · rw [if_neg hzy] at h2
                  by_cases hxy : x.toNat < y.toNat
                  · -- x < y ≤ z, so ¬ z < x and x < z: result false
                    rw [if_neg (by omega), if_pos (by omega)]
                  · by_cases hyz : y.toNat < z.toNat
                    · rw [if_neg (by omega), if_pos (by omega)]
                    · -- all heads numerically equal
                      rw [if_neg (by omega)] at h1
                      rw [if_neg (by omega)] at h2
                      rw [if_neg (by omega), if_neg (by omega)]
                      exact ih ys zs h1 h2

theorem strLeB_iff (a b : String) : strLeB a b = true ↔ strLtB b a = false := by
  unfold strLeB
  cases h : strLtB b a <;> simp

theorem strLeB_total (a b : String) : strLeB a b = true ∨ strLeB b a = true := by
  by_cases h : strLtB b a = true
  · right
    rw [strLeB_iff]
    exact strLtList_asymm _ _ h
  · left
    rw [strLeB_iff]
    cases h2 : strLtB b a
    · rfl
    · exact absurd h2 h

theorem strLeB_trans (a b c : String) (h1 : strLeB a b = true)
    (h2 : strLeB b c = true) : strLeB a c = true := by
  rw [strLeB_iff] at h1 h2 ⊢
  exact strLeList_trans _ _ _ h1 h2

theorem order_eligible_pas_sorted (eligible : List String) (g : Graph)
    (etaM : List (String × Int)) (policy : String)
    (hpas : strLower policy = "pas") :
    (order_eligible eligible g etaM policy).Pairwise
      (fun a b => prioOf g b ≤ prioOf g a) := by
  unfold order_eligible
  rw [if_pos hpas]
  have hsorted := sortLe_pairwise (fun a b =>
      let pa : Int := -(prioOf g a)
      let pb : Int := -(prioOf g b)
      let ea : Int := (alookup etaM a).getD 0
      let eb : Int := (alookup etaM b).getD 0
      decide (pa < pb) || (decide (pa = pb) &&
        (decide (ea < eb) || (decide (ea = eb) && strLeB a b))))
    (by
      intro a b
      simp only [Bool.or_eq_true, Bool.and_eq_true, decide_eq_true_eq]
      by_cases h1 : -(prioOf g a) < -(prioOf g b)
      · exact Or.inl (Or.inl h1)
      · by_cases h2 : -(prioOf g b) < -(prioOf g a)
        · exact Or.inr (Or.inl h2)
        · by_cases h3 : (alookup etaM a).getD 0 < (alookup etaM b).getD 0
          · exact Or.inl (Or.inr ⟨by omega, Or.inl h3⟩)
          · by_cases h4 : (alookup etaM b).getD 0 < (alookup etaM a).getD 0
            · exact Or.inr (Or.inr ⟨by omega, Or.inl h4⟩)
            · rcases strLeB_total a b with h5 | h5
              · exact Or.inl (Or.inr ⟨by omega, Or.inr ⟨by omega, h5⟩⟩)
              · exact Or.inr (Or.inr ⟨by omega, Or.inr ⟨by omega, h5⟩⟩))
    (by
      intro a b c hab hbc
      simp only [Bool.or_eq_true, Bool.and_eq_true, decide_eq_true_eq] at hab hbc ⊢
      rcases hab with h1 | ⟨h1, hab2⟩
      · rcases hbc with h2 | ⟨h2, _⟩
        · exact Or.inl (by omega)
        · exact Or.inl (by omega)
      · rcases hbc with h2 | ⟨h2, hbc2⟩
        · exact Or.inl (by omega)
        · refine Or.inr ⟨by omega, ?_⟩
          rcases hab2 with h3 | ⟨h3, hab3⟩
          · rcases hbc2 with h4 | ⟨h4, _⟩
            · exact Or.inl (by omega)
            · exact Or.inl (by omega)
          · rcases hbc2 with h4 | ⟨h4, hbc3⟩
            · exact Or.inl (by omega)
            · exact Or.inr ⟨by omega, strLeB_trans a b c hab3 hbc3⟩)
    eligible
  refine hsorted.imp ?_
  intro a b h
  simp only [Bool.or_eq_true, Bool.and_eq_true, decide_eq_true_eq] at h
  rcases h with h | ⟨h, _⟩
  · omega
  · omega

theorem eventDispatch_schedule (C : Ctx) (t : Int) (n : String) (core : Nat)
    (s1 : SchedState) : (eventDispatch C t n core s1).schedule =
      s1.schedule ++ [⟨n, t, t + execOf C.g n, core, t⟩] := by
  unfold eventDispatch
  dsimp only
  split
  · rfl
  · rfl

theorem eventDispatch_log (C : Ctx) (t : Int) (n : String) (core : Nat)
    (s1 : SchedState) :
    (eventDispatch C t n core s1).decision_log = s1.decision_log := by
  unfold eventDispatch
  dsimp only
  split
  · rfl
  · rfl

theorem runEventsAux_log (C : Ctx) (t : Int) (na : Option Int) :
    ∀ (l : List String) (savail : List Nat) (s : SchedState),
    (runEventsAux C t na l savail s).1.decision_log = s.decision_log := by
  intro l
  induction l with
  | nil =>
      intro savail s
      rfl
  | cons n rest ih =>
      intro savail s
      cases savail with
      | nil =>
          rw [runEventsAux]
      | cons core srest =>
          rw [runEventsAux]
          simp only
          split
          · rfl
          · cases na with
            | some nav =>
                simp only
                split
                · rw [ih]
                · rw [ih, eventDispatch_log]
            | none =>
                rw [ih, eventDispatch_log]

theorem periodicStep_log (C : Ctx) (t : Int) (n : String) (s : SchedState) :
    (periodicStep C t n s).decision_log = s.decision_log := by
  unfold periodicStep
  cases s.available_cores with
  | nil => rfl
  | cons a rest => rfl

theorem runPeriodicNow_log (C : Ctx) (t : Int) :
    ∀ (l : List String) (s : SchedState),
    (runPeriodicNow C t l s).decision_log = s.decision_log := by
  intro l
  induction l with
  | nil =>
      intro s
      rfl
  | cons n rest ih =>
      intro s
      rw [runPeriodicNow, ih, periodicStep_log]

theorem completeOne_log (C : Ctx) (s : SchedState)
    (r : (String × Int) × (Int × Nat)) :
    (completeOne C s r).decision_log = s.decision_log := by
  unfold completeOne
  dsimp only
  refine foldl_field_const _ (fun st => st.decision_log) ?_ _ _
  intro st b
  rfl

theorem advance_log (C : Ctx) (t1 : Option Int) (s : SchedState) :
    (advance C t1 s).decision_log = s.decision_log := by
  have h : (advance C t1 s).decision_log = ((s.running.filter (fun r =>
      some r.2.1 = oMin (minFin s.running) (minPhiGt s.phi t1))).foldl
        (completeOne C) s).decision_log := rfl
  rw [h]
  exact foldl_field_const _ (fun st => st.decision_log) (completeOne_log C) _ _

theorem periodicStep_schedule_cases (C : Ctx) (t : Int) (n : String)
    (s : SchedState) :
    (periodicStep C t n s).schedule = s.schedule
    ∨ (periodicStep C t n s).schedule = s.schedule ++
        [⟨n, t, t + execOf C.g n, listMinD s.available_cores 0, t⟩] := by
  unfold periodicStep
  cases havail : s.available_cores with
  | nil => exact Or.inl rfl
  | cons a rest => exact Or.inr rfl

theorem runPeriodicNow_schedule_extend (C : Ctx) (t : Int) :
    ∀ (l : List String) (s : SchedState),
    ∃ d, (runPeriodicNow C t l s).schedule = s.schedule ++ d
      ∧ ∀ e ∈ d, e.runnable ∈ l := by
  intro l
  induction l with
  | nil =>
      intro s
      exact ⟨[], (List.append_nil _).symm, fun e he => absurd he (List.not_mem_nil e)⟩
  | cons n rest ih =>
      intro s
      rw [runPeriodicNow]
      obtain ⟨d, hd, hsub⟩ := ih (periodicStep C t n s)
      rcases periodicStep_schedule_cases C t n s with h | h
      · refine ⟨d, ?_, fun e he => List.mem_cons_of_mem _ (hsub e he)⟩
        rw [hd, h]
      · refine ⟨⟨n, t, t + execOf C.g n, listMinD s.available_cores 0, t⟩ :: d,
          ?_, ?_⟩
        · rw [hd, h, List.append_assoc]
          rfl
        · intro e he
          rcases List.mem_cons.mp he with rfl | he2
          · exact List.mem_cons_self _ _
          · exact List.mem_cons_of_mem _ (hsub e he2)

theorem periodicStep_avail_len (C : Ctx) (t : Int) (n : String) (s : SchedState) :
    s.available_cores.length ≤ (periodicStep C t n s).available_cores.length + 1 := by
  unfold periodicStep
  cases havail : s.available_cores with
  | nil => simp
  | cons a rest =>
      dsimp only
      have hmem : listMinD (a :: rest) 0 ∈ a :: rest :=
        listMinD_mem _ _ (List.cons_ne_nil a rest)
      rw [List.length_erase_of_mem hmem]
      simp

theorem runPeriodicNow_avail_len (C : Ctx) (t : Int) :
    ∀ (l : List String) (s : SchedState),
    s.available_cores.length ≤
      (runPeriodicNow C t l s).available_cores.length + l.length := by
  intro l
  induction l with
  | nil =>
      intro s
      simp [runPeriodicNow]
  | cons n rest ih =>
      intro s
      rw [runPeriodicNow]
      have h1 := periodicStep_avail_len C t n s
      have h2 := ih (periodicStep C t n s)
      simp only [List.length_cons]
      omega

theorem runEventsAux_schedule_extend (C : Ctx) (t : Int) (na : Option Int) :
    ∀ (l : List String) (savail : List Nat) (s : SchedState),
    ∃ d, (runEventsAux C t na l savail s).1.schedule = s.schedule ++ d := by
  intro l
  induction l with
  | nil =>
      intro savail s
      exact ⟨[], (List.append_nil _).symm⟩
  | cons n rest ih =>
      intro savail s
      cases savail with
      | nil =>
          rw [runEventsAux]
          exact ⟨[], (List.append_nil _).symm⟩
      | cons core srest =>
          rw [runEventsAux]
          simp only
          split
          · exact ⟨[], (List.append_nil _).symm⟩
          · cases na with
            | some nav =>
                simp only
                split
                · obtain ⟨d, hd⟩ := ih (core :: srest) _
                  exact ⟨d, hd⟩
                · obtain ⟨d, hd⟩ := ih srest
                    (eventDispatch C t n core { s with startT := aset s.startT n t })
                  refine ⟨⟨n, t, t + execOf C.g n, core, t⟩ :: d, ?_⟩
                  rw [hd, eventDispatch_schedule, List.append_assoc]
                  rfl
            | none =>
                obtain ⟨d, hd⟩ := ih srest
                  (eventDispatch C t n core { s with startT := aset s.startT n t })
                refine ⟨⟨n, t, t + execOf C.g n, core, t⟩ :: d, ?_⟩
                rw [hd, eventDispatch_schedule, List.append_assoc]
                rfl

theorem runEventsAux_no_inversion (C : Ctx) (t : Int) (na : Option Int) :
    ∀ (l : List String) (savail : List Nat) (s : SchedState),
    l.length ≤ savail.length →
    l.Pairwise (fun a b => prioOf C.g b ≤ prioOf C.g a) →
    ∀ b ∈ l,
      b ∉ ((runEventsAux C t na l savail s).1.schedule.drop
        s.schedule.length).map (fun e => e.runnable) →
      b ∉ (runEventsAux C t na l savail s).2 →
      ∀ a ∈ ((runEventsAux C t na l savail s).1.schedule.drop
        s.schedule.length).map (fun e => e.runnable),
        prioOf C.g b ≤ prioOf C.g a := by
  intro l
  induction l with
  | nil =>
      intro savail s _ _ b hb
      cases hb
  | cons n rest ih =>
      intro savail s hlen hsort
      rcases List.pairwise_cons.mp hsort with ⟨hs1, hs2⟩
      cases savail with
      | nil => simp at hlen
      | cons core srest =>
          rw [runEventsAux]
          simp only
          split
          · intro b hb hbd hbdef a ha
            simp at ha
          · cases na with
            | some nav =>
                simp only
                split
                · intro b hb hbd hbdef a ha
                  dsimp only at hbd hbdef ha
                  rcases List.mem_cons.mp hb with rfl | hbr
                  · exact absurd (List.mem_cons_self _ _) hbdef
                  · refine ih (core :: srest)
                      { s with
                        startT := aset (aset s.startT n t) n
                          (nav + execOf C.g (minKeyD s.phi "")),
                        total_delay := s.total_delay +
                          (nav + execOf C.g (minKeyD s.phi "") -
                            (alookup (aset s.startT n t) n).getD 0) }
                      ?_ hs2 b hbr hbd ?_ a ha
                    · simp only [List.length_cons] at hlen ⊢
                      omega
                    · intro hh
                      exact hbdef (List.mem_cons_of_mem _ hh)
                · intro b hb hbd hbdef a ha
                  obtain ⟨d, hd⟩ := runEventsAux_schedule_extend C t (some nav)
                    rest srest
                    (eventDispatch C t n core { s with startT := aset s.startT n t })
                  have hdrop : ((runEventsAux C t (some nav) rest srest
                      (eventDispatch C t n core
                        { s with startT := aset s.startT n t })).1.schedule.drop
                        s.schedule.length) =
                      ⟨n, t, t + execOf C.g n, core, t⟩ :: d := by
                    rw [hd, eventDispatch_schedule]
                    have hss : ({ s with startT := aset s.startT n t } :
                        SchedState).schedule = s.schedule := rfl
                    rw [hss, List.append_assoc]
                    rw [List.drop_left]
                    rfl
                  rw [hdrop] at hbd ha
                  simp only [List.map_cons] at hbd ha
                  rcases List.mem_cons.mp hb with rfl | hbr
                  · exact absurd (List.mem_cons_self _ _) hbd
                  · rcases List.mem_cons.mp ha with ha1 | had
                    · rw [ha1]
                      exact hs1 b hbr
                    · have hD2 : ((runEventsAux C t (some nav) rest srest
                          (eventDispatch C t n core
                            { s with startT := aset s.startT n t })).1.schedule.drop
                          (eventDispatch C t n core
                            { s with startT := aset s.startT n t }).schedule.length).map
                          (fun e => e.runnable) = d.map (fun e => e.runnable) := by
                        rw [hd, List.drop_left]
                      refine ih srest (eventDispatch C t n core
                          { s with startT := aset s.startT n t }) ?_ hs2 b hbr
                          ?_ hbdef a ?_
                      · simp only [List.length_cons] at hlen
                        omega
                      · rw [hD2]
                        intro hh
                        exact hbd (List.mem_cons_of_mem _ hh)
                      · rw [hD2]
                        exact had
            | none =>
                intro b hb hbd hbdef a ha
                obtain ⟨d, hd⟩ := runEventsAux_schedule_extend C t none
                  rest srest
                  (eventDispatch C t n core { s with startT := aset s.startT n t })
                have hdrop : ((runEventsAux C t none rest srest
                    (eventDispatch C t n core
                      { s with startT := aset s.startT n t })).1.schedule.drop
                      s.schedule.length) =
                    ⟨n, t, t + execOf C.g n, core, t⟩ :: d := by
                  rw [hd, eventDispatch_schedule]
                  have hss : ({ s with startT := aset s.startT n t } :
                      SchedState).schedule = s.schedule := rfl
                  rw [hss, List.append_assoc]
                  rw [List.drop_left]
                  rfl
                rw [hdrop] at hbd ha
                simp only [List.map_cons] at hbd ha
                rcases List.mem_cons.mp hb with rfl | hbr
                · exact absurd (List.mem_cons_self _ _) hbd
                · rcases List.mem_cons.mp ha with ha1 | had
                  · rw [ha1]
                    exact hs1 b hbr
                  · have hD2 : ((runEventsAux C t none rest srest
                        (eventDispatch C t n core
                          { s with startT := aset s.startT n t })).1.schedule.drop
                        (eventDispatch C t n core
                          { s with startT := aset s.startT n t }).schedule.length).map
                        (fun e => e.runnable) = d.map (fun e => e.runnable) := by
                      rw [hd, List.drop_left]
                    refine ih srest (eventDispatch C t n core
                        { s with startT := aset s.startT n t }) ?_ hs2 b hbr
                        ?_ hbdef a ?_
                    · simp only [List.length_cons] at hlen
                      omega
                    · rw [hD2]
                      intro hh
                      exact hbd (List.mem_cons_of_mem _ hh)
                    · rw [hD2]
                      exact had

theorem body_log_Q (C : Ctx) (t1 : Int) (op oe : List String) (s1 : SchedState)
    (hop_per : ∀ m ∈ op, typeOf C.g m = "periodic")
    (hoe_sorted : oe.Pairwise (fun a b => prioOf C.g b ≤ prioOf C.g a)) :
    (op ++ oe).length ≤ s1.available_cores.length →
    ∀ a ∈ op ++ oe, ∀ b ∈ op ++ oe,
      typeOf C.g a ≠ "periodic" → typeOf C.g b ≠ "periodic" →
      a ∈ ((runEventsAux C t1 (runPeriodicNow C t1 op s1).next_active oe
        (sortLe natLeB (runPeriodicNow C t1 op s1).available_cores)
        (runPeriodicNow C t1 op s1)).1.schedule.drop
          s1.schedule.length).map (fun e => e.runnable) →
      b ∉ ((runEventsAux C t1 (runPeriodicNow C t1 op s1).next_active oe
        (sortLe natLeB (runPeriodicNow C t1 op s1).available_cores)
        (runPeriodicNow C t1 op s1)).1.schedule.drop
          s1.schedule.length).map (fun e => e.runnable) →
      b ∉ (runEventsAux C t1 (runPeriodicNow C t1 op s1).next_active oe
        (sortLe natLeB (runPeriodicNow C t1 op s1).available_cores)
        (runPeriodicNow C t1 op s1)).2 →
      prioOf C.g b ≤ prioOf C.g a := by
  intro hample a ha b hb hat hbt haD hbD hbdef
  have hboe : b ∈ oe := by
    rcases List.mem_append.mp hb with h | h
    · exact absurd (hop_per b h) hbt
    · exact h
  obtain ⟨dP, hdP, hdPsub⟩ := runPeriodicNow_schedule_extend C t1 op s1
  obtain ⟨dE, hdE⟩ := runEventsAux_schedule_extend C t1
    (runPeriodicNow C t1 op s1).next_active oe
    (sortLe natLeB (runPeriodicNow C t1 op s1).available_cores)
    (runPeriodicNow C t1 op s1)
  have hdrop : ((runEventsAux C t1 (runPeriodicNow C t1 op s1).next_active oe
      (sortLe natLeB (runPeriodicNow C t1 op s1).available_cores)
      (runPeriodicNow C t1 op s1)).1.schedule.drop s1.schedule.length) =
      dP ++ dE := by
    rw [hdE, hdP, List.append_assoc, List.drop_left]
  have hdrop2 : ((runEventsAux C t1 (runPeriodicNow C t1 op s1).next_active oe
      (sortLe natLeB (runPeriodicNow C t1 op s1).available_cores)
      (runPeriodicNow C t1 op s1)).1.schedule.drop
        (runPeriodicNow C t1 op s1).schedule.length) = dE := by
    rw [hdE, List.drop_left]
  rw [hdrop, List.map_append] at haD hbD
  have haE : a ∈ dE.map (fun e => e.runnable) := by
    rcases List.mem_append.mp haD with h | h
    · exfalso
      rcases List.mem_map.mp h with ⟨e, he, hre⟩
      exact hat (hre ▸ hop_per _ (hdPsub e he))
    · exact h
  have hbE : b ∉ dE.map (fun e => e.runnable) := fun hh =>
    hbD (List.mem_append.mpr (Or.inr hh))
  have hlenav := runPeriodicNow_avail_len C t1 op s1
  have hlen : oe.length ≤ (sortLe natLeB
      (runPeriodicNow C t1 op s1).available_cores).length := by
    rw [length_sortLe]
    simp only [List.length_append] at hample
    omega
  exact runEventsAux_no_inversion C t1
    (runPeriodicNow C t1 op s1).next_active oe
    (sortLe natLeB (runPeriodicNow C t1 op s1).available_cores)
    (runPeriodicNow C t1 op s1) hlen hoe_sorted b hboe
    (by rw [hdrop2]; exact hbE) hbdef a (by rw [hdrop2]; exact haE)

theorem periodicStep_dispatch (C : Ctx) (t : Int) (n : String) (s : SchedState)
    (h : s.available_cores ≠ []) :
    (periodicStep C t n s).schedule = s.schedule ++
      [⟨n, t, t + execOf C.g n, listMinD s.available_cores 0, t⟩]
    ∧ (periodicStep C t n s).available_cores.length + 1 =
        s.available_cores.length := by
  unfold periodicStep
  cases havail : s.available_cores with
  | nil => exact absurd havail h
  | cons a rest =>
      refine ⟨rfl, ?_⟩
      have hmem : listMinD (a :: rest) 0 ∈ a :: rest :=
        listMinD_mem _ _ (List.cons_ne_nil a rest)
      show ((a :: rest).erase (listMinD (a :: rest) 0)).length + 1 =
        (a :: rest).length
      rw [List.length_erase_of_mem hmem]
      simp only [List.length_cons]
      omega

theorem runPeriodicNow_complete (C : Ctx) (t : Int) :
    ∀ (l : List String) (s : SchedState),
    l.length ≤ s.available_cores.length →
    ∀ m ∈ l, m ∈ ((runPeriodicNow C t l s).schedule.drop
      s.schedule.length).map (fun e => e.runnable) := by
  intro l
  induction l with
  | nil =>
      intro s _ m hm
      cases hm
  | cons n rest ih =>
      intro s hlen m hm
      rw [runPeriodicNow]
      have hne : s.available_cores ≠ [] := by
        intro hh
        rw [hh] at hlen
        simp at hlen
      obtain ⟨hsch, hlen2⟩ := periodicStep_dispatch C t n s hne
      obtain ⟨d, hd, _⟩ := runPeriodicNow_schedule_extend C t rest
        (periodicStep C t n s)
      have hdrop : ((runPeriodicNow C t rest (periodicStep C t n s)).schedule.drop
          s.schedule.length) =
          ⟨n, t, t + execOf C.g n, listMinD s.available_cores 0, t⟩ :: d := by
        rw [hd, hsch, List.append_assoc]
        rw [List.drop_left]
        rfl
      rw [hdrop]
      simp only [List.map_cons]
      rcases List.mem_cons.mp hm with rfl | hm2
      · exact List.mem_cons_self _ _
      · have hdrop2 : ((runPeriodicNow C t rest
            (periodicStep C t n s)).schedule.drop
            (periodicStep C t n s).schedule.length) = d := by
          rw [hd, List.drop_left]
        have hrec := ih (periodicStep C t n s)
          (by simp only [List.length_cons] at hlen; omega) m hm2
        rw [hdrop2] at hrec
        exact List.mem_cons_of_mem _ hrec

theorem runEventsAux_complete (C : Ctx) (t : Int) (na : Option Int) :
    ∀ (l : List String) (savail : List Nat) (s : SchedState),
    l.length ≤ savail.length →
    (∀ m ∈ l, ¬ C.horizon < t + execOf C.g m) →
    ∀ b ∈ l,
      b ∉ (runEventsAux C t na l savail s).2 →
      b ∈ ((runEventsAux C t na l savail s).1.schedule.drop
        s.schedule.length).map (fun e => e.runnable) := by
  intro l
  induction l with
  | nil =>
      intro savail s _ _ b hb
      cases hb
  | cons n rest ih =>
      intro savail s hlen hfit
      cases savail with
      | nil => simp at hlen
      | cons core srest =>
          rw [runEventsAux]
          simp only
          split
          · rename_i hhor
            exact absurd hhor (hfit n (List.mem_cons_self _ _))
          · cases na with
            | some nav =>
                simp only
                split
                · intro b hb hbdef
                  dsimp only at hbdef ⊢
                  rcases List.mem_cons.mp hb with rfl | hbr
                  · exact absurd (List.mem_cons_self _ _) hbdef
                  · refine ih (core :: srest)
                      { s with
                        startT := aset (aset s.startT n t) n
                          (nav + execOf C.g (minKeyD s.phi "")),
                        total_delay := s.total_delay +
                          (nav + execOf C.g (minKeyD s.phi "") -
                            (alookup (aset s.startT n t) n).getD 0) }
                      ?_ (fun m hm => hfit m (List.mem_cons_of_mem _ hm)) b hbr ?_
                    · simp only [List.length_cons] at hlen ⊢
                      omega
                    · intro hh
                      exact hbdef (List.mem_cons_of_mem _ hh)
                · intro b hb hbdef
                  obtain ⟨d, hd⟩ := runEventsAux_schedule_extend C t (some nav)
                    rest srest
                    (eventDispatch C t n core { s with startT := aset s.startT n t })
                  have hdrop : ((runEventsAux C t (some nav) rest srest
                      (eventDispatch C t n core
                        { s with startT := aset s.startT n t })).1.schedule.drop
                        s.schedule.length) =
                      ⟨n, t, t + execOf C.g n, core, t⟩ :: d := by
                    rw [hd, eventDispatch_schedule]
                    have hss : ({ s with startT := aset s.startT n t } :
                        SchedState).schedule = s.schedule := rfl
                    rw [hss, List.append_assoc]
                    rw [List.drop_left]
                    rfl
                  rw [hdrop]
                  simp only [List.map_cons]
                  rcases List.mem_cons.mp hb with rfl | hbr
                  · exact List.mem_cons_self _ _
                  · have hD2 : ((runEventsAux C t (some nav) rest srest
                        (eventDispatch C t n core
                          { s with startT := aset s.startT n t })).1.schedule.drop
                        (eventDispatch C t n core
                          { s with startT := aset s.startT n t }).schedule.length) =
                        d := by
                      rw [hd, List.drop_left]
                    have hrec := ih srest (eventDispatch C t n core
                        { s with startT := aset s.startT n t })
                      (by simp only [List.length_cons] at hlen; omega)
                      (fun m hm => hfit m (List.mem_cons_of_mem _ hm)) b hbr hbdef
                    rw [hD2] at hrec
                    exact List.mem_cons_of_mem _ hrec
            | none =>
                intro b hb hbdef
                obtain ⟨d, hd⟩ := runEventsAux_schedule_extend C t none
                  rest srest
                  (eventDispatch C t n core { s with startT := aset s.startT n t })
                have hdrop : ((runEventsAux C t none rest srest
                    (eventDispatch C t n core
                      { s with startT := aset s.startT n t })).1.schedule.drop
                      s.schedule.length) =
                    ⟨n, t, t + execOf C.g n, core, t⟩ :: d := by
                  rw [hd, eventDispatch_schedule]
                  have hss : ({ s with startT := aset s.startT n t } :
                      SchedState).schedule = s.schedule := rfl
                  rw [hss, List.append_assoc]
                  rw [List.drop_left]
                  rfl
                rw [hdrop]
                simp only [List.map_cons]
                rcases List.mem_cons.mp hb with rfl | hbr
                · exact List.mem_cons_self _ _
                · have hD2 : ((runEventsAux C t none rest srest
                      (eventDispatch C t n core
                        { s with startT := aset s.startT n t })).1.schedule.drop
                      (eventDispatch C t n core
                        { s with startT := aset s.startT n t }).schedule.length) =
                      d := by
                    rw [hd, List.drop_left]
                  have hrec := ih srest (eventDispatch C t n core
                      { s with startT := aset s.startT n t })
                    (by simp only [List.length_cons] at hlen; omega)
                    (fun m hm => hfit m (List.mem_cons_of_mem _ hm)) b hbr hbdef
                  rw [hD2] at hrec
                  exact List.mem_cons_of_mem _ hrec

theorem body_complete (C : Ctx) (t1 : Int) (op oe : List String)
    (s1 : SchedState)
    (hample : (op ++ oe).length ≤ s1.available_cores.length)
    (hfit : ∀ m ∈ oe, ¬ C.horizon < t1 + execOf C.g m) :
    ∀ b ∈ op ++ oe,
      b ∉ (runEventsAux C t1 (runPeriodicNow C t1 op s1).next_active oe
        (sortLe natLeB (runPeriodicNow C t1 op s1).available_cores)
        (runPeriodicNow C t1 op s1)).2 →
      b ∈ ((runEventsAux C t1 (runPeriodicNow C t1 op s1).next_active oe
        (sortLe natLeB (runPeriodicNow C t1 op s1).available_cores)
        (runPeriodicNow C t1 op s1)).1.schedule.drop
          s1.schedule.length).map (fun e => e.runnable) := by
  intro b hb hbdef
  obtain ⟨dP, hdP, _⟩ := runPeriodicNow_schedule_extend C t1 op s1
  obtain ⟨dE, hdE⟩ := runEventsAux_schedule_extend C t1
    (runPeriodicNow C t1 op s1).next_active oe
    (sortLe natLeB (runPeriodicNow C t1 op s1).available_cores)
    (runPeriodicNow C t1 op s1)
  have hdrop : ((runEventsAux C t1 (runPeriodicNow C t1 op s1).next_active oe
      (sortLe natLeB (runPeriodicNow C t1 op s1).available_cores)
      (runPeriodicNow C t1 op s1)).1.schedule.drop s1.schedule.length) =
      dP ++ dE := by
    rw [hdE, hdP, List.append_assoc, List.drop_left]
  rw [hdrop, List.map_append]
  rcases List.mem_append.mp hb with h | h
  · have hlenop : op.length ≤ s1.available_cores.length := by
      simp only [List.length_append] at hample
      omega
    have hP := runPeriodicNow_complete C t1 op s1 hlenop b h
    have hdropP : ((runPeriodicNow C t1 op s1).schedule.drop
        s1.schedule.length) = dP := by
      rw [hdP, List.drop_left]
    rw [hdropP] at hP
    exact List.mem_append.mpr (Or.inl hP)
  · have hlen : oe.length ≤ (sortLe natLeB
        (runPeriodicNow C t1 op s1).available_cores).length := by
      rw [length_sortLe]
      have h2 := runPeriodicNow_avail_len C t1 op s1
      simp only [List.length_append] at hample
      omega
    have hE := runEventsAux_complete C t1
      (runPeriodicNow C t1 op s1).next_active oe
      (sortLe natLeB (runPeriodicNow C t1 op s1).available_cores)
      (runPeriodicNow C t1 op s1) hlen hfit b h hbdef
    have hdropE : ((runEventsAux C t1 (runPeriodicNow C t1 op s1).next_active oe
        (sortLe natLeB (runPeriodicNow C t1 op s1).available_cores)
        (runPeriodicNow C t1 op s1)).1.schedule.drop
          (runPeriodicNow C t1 op s1).schedule.length) = dE := by
      rw [hdE, List.drop_left]
    rw [hdropE] at hE
    exact List.mem_append.mpr (Or.inr hE)

theorem iterate_log (C : Ctx) (s : SchedState) (hinv : Inv C s)
    (hgnd : (C.g.map Prod.fst).Nodup)
    (hpas : strLower C.sched_policy = "pas") :
    ∀ dp ∈ (iterate C s).decision_log,
      dp ∈ s.decision_log ∨ pasDecisionOk C dp := by
  unfold iterate
  cases htau : s.tau with
  | none => exact fun dp hdp => Or.inl hdp
  | some t =>
      dsimp only
      by_cases hjump : get_event_at_tau C s t = [] ∧ C.num_cores ≤ 1
      · rw [if_pos hjump]
        cases hna : s.next_active with
        | none =>
            dsimp only
            intro dp hdp
            rw [advance_log] at hdp
            left
            split at hdp
            · exact hdp
            · exact hdp
        | some nav =>
            dsimp only
            intro dp hdp
            rw [advance_log] at hdp
            dsimp only at hdp
            rw [runEventsAux_log, runPeriodicNow_log] at hdp
            rcases List.mem_append.mp hdp with h | h
            · left
              split at h
              · exact h
              · exact h
            · rcases List.mem_singleton.mp h with rfl
              right
              refine ⟨?_, ?_⟩
              · intro hample a ha b hb hat hbt haD hbD hbdef
                refine body_log_Q C nav _ _ _ ?_ ?_ hample a ha b hb hat hbt
                  haD hbD hbdef
                · intro m hm
                  exact hinv.phi_periodic _
                    (mem_get_periodic s nav m
                      ((mem_order_eligible _ _ _ _ _).mp hm))
                · exact order_eligible_pas_sorted _ _ _ _ hpas
              · intro hample hfit b hbmem hbdef
                refine body_complete C nav _ _ _ hample ?_ b hbmem hbdef
                intro m2 hm2
                exact hfit m2 (List.mem_append.mpr (Or.inr hm2))
                  (get_event_types C s t hgnd m2
                    ((mem_order_eligible _ _ _ _ _).mp hm2))
      · rw [if_neg hjump]
        dsimp only
        intro dp hdp
        rw [advance_log] at hdp
        dsimp only at hdp
        rw [runEventsAux_log, runPeriodicNow_log] at hdp
        rcases List.mem_append.mp hdp with h | h
        · left
          split at h
          · exact h
          · exact h
        · rcases List.mem_singleton.mp h with rfl
          right
          refine ⟨?_, ?_⟩
          · intro hample a ha b hb hat hbt haD hbD hbdef
            refine body_log_Q C t _ _ _ ?_ ?_ hample a ha b hb hat hbt
              haD hbD hbdef
            · intro m hm
              exact hinv.phi_periodic _
                (mem_get_periodic s t m ((mem_order_eligible _ _ _ _ _).mp hm))
            · exact order_eligible_pas_sorted _ _ _ _ hpas
          · intro hample hfit b hbmem hbdef
            refine body_complete C t _ _ _ hample ?_ b hbmem hbdef
            intro m2 hm2
            exact hfit m2 (List.mem_append.mpr (Or.inr hm2))
              (get_event_types C s t hgnd m2
                ((mem_order_eligible _ _ _ _ _).mp hm2))

theorem loop_log (C : Ctx) (fuel : Nat) (s : SchedState) (hinv : Inv C s)
    (hnc : 1 ≤ C.num_cores) (hex : ExecNonneg C.g)
    (hgnd : (C.g.map Prod.fst).Nodup)
    (hpas : strLower C.sched_policy = "pas") :
    ∀ dp ∈ (loop C fuel s).decision_log,
      dp ∈ s.decision_log ∨ pasDecisionOk C dp := by
  induction fuel generalizing s with
  | zero => exact fun dp hdp => Or.inl hdp
  | succ n ih =>
      rw [loop]
      split
      · intro dp hdp
        rcases ih (iterate C s) (iterate_inv C s hinv hnc hex hgnd) dp hdp with
          h | h
        · exact iterate_log C s hinv hgnd hpas dp h
        · exact Or.inr h
      · exact fun dp hdp => Or.inl hdp

/-- Claim C2 (confirmed): for every input graph with distinct node names,
non-negative execution times and at least one core, any two schedule entries
emitted by `run_main_scheduler` that carry the same core index occupy disjoint
half-open intervals `[start_time, finish_time)`. -/
theorem claim_C2_core_disjoint (g : Graph) (num_cores : Nat) (sp ap : String)
    (I : Option Int) (hnc : 1 ≤ num_cores) (hex : ExecNonneg g)
    (hgnd : (g.map Prod.fst).Nodup) :
    (run_main_scheduler g num_cores sp ap I).1.Pairwise
      (fun e1 e2 => e1.core = e2.core → entriesDisjoint e1 e2) :=
  (runState_inv g num_cores sp ap I hnc hex hgnd).disj

/-- Witness for C2 at a concrete input. -/
theorem claim_C2_core_disjoint_witness :
    (run_main_scheduler graphS5 1 "fcfs" "static" (some 3)).1.Pairwise
      (fun e1 e2 => e1.core = e2.core → entriesDisjoint e1 e2) :=
  claim_C2_core_disjoint graphS5 1 "fcfs" "static" (some 3)
    (by decide) (by unfold ExecNonneg; decide) (by decide)

/-- Claim C7 (confirmed): for every periodic node `n` with period `T`, the
k-th emitted schedule entry for `n` (counting from 0 in emission order) has
`start_time ≥ k·T`, for every input graph with distinct node names,
non-negative execution times and at least one core. -/
theorem claim_C7_periodic_release (g : Graph) (num_cores : Nat) (sp ap : String)
    (I : Option Int) (hnc : 1 ≤ num_cores) (hex : ExecNonneg g)
    (hgnd : (g.map Prod.fst).Nodup) (n : String)
    (hper : typeOf g n = "periodic") (k : Nat)
    (hk : k < (((run_main_scheduler g num_cores sp ap I).1.filter
      (fun e => e.runnable = n)).length)) :
    periodOf g n * (k : Int) ≤
      (((run_main_scheduler g num_cores sp ap I).1.filter
        (fun e => e.runnable = n)).get ⟨k, hk⟩).start_time :=
  (runState_inv g num_cores sp ap I hnc hex hgnd).periodic_start n hper k hk

/-- Witness for C7 at a concrete input: the second release of A in scenario
S5 starts at 5 ≥ 1·5. -/
theorem claim_C7_periodic_release_witness :
    ∃ hk : 1 < (((run_main_scheduler graphS5 1 "fcfs" "dynamic" (some 3)).1.filter
        (fun e => e.runnable = "A")).length),
      periodOf graphS5 "A" * (1 : Int) ≤
        (((run_main_scheduler graphS5 1 "fcfs" "dynamic" (some 3)).1.filter
          (fun e => e.runnable = "A")).get ⟨1, hk⟩).start_time :=
  ⟨by decide, claim_C7_periodic_release graphS5 1 "fcfs" "dynamic" (some 3)
    (by decide) (by unfold ExecNonneg; decide) (by decide) "A" (by decide) 1
    (by decide)⟩

/-- Claim C8 (confirmed): under static allocation (policy lowercasing to
"static"), every emitted schedule entry's core index lies strictly below
`c_alloc = max(1, min(num_cores, P_max, N_min))`, for every input graph and
`num_cores ≥ 1`. -/
theorem claim_C8_static_core_bound (g : Graph) (num_cores : Nat) (sp ap : String)
    (I : Option Int) (hnc : 1 ≤ num_cores) (hst : strLower ap = "static") :
    ((run_main_scheduler g num_cores sp ap I).1).all (fun e =>
      decide ((e.core : Int) < max 1 (min (num_cores : Int)
        (min (compute_parallelism_bounds g num_cores).1
          (compute_parallelism_bounds g num_cores).2)))) = true := by
  rw [List.all_eq_true]
  intro e he
  rw [decide_eq_true_eq]
  have hap : strLower (mkCtx g num_cores sp ap I).alloc_policy = "static" := hst
  have hstb : isStatic (mkCtx g num_cores sp ap I) = true := by
    unfold isStatic
    rw [hap]
    decide
  have hndb : isDynamic (mkCtx g num_cores sp ap I) = false := by
    unfold isDynamic
    rw [hap]
    decide
  have h := (invStatic_loop (mkCtx g num_cores sp ap I) (fuelOf g I) _
    (invStatic_init _ hstb) hndb).sched_lt e he
  unfold callocOf at h
  dsimp only [mkCtx] at h
  omega

/-- Witness for C8 at a concrete input. -/
theorem claim_C8_static_core_bound_witness :
    ((run_main_scheduler graphS5 2 "fcfs" "static" (some 3)).1).all (fun e =>
      decide ((e.core : Int) < max 1 (min (2 : Int)
        (min (compute_parallelism_bounds graphS5 2).1
          (compute_parallelism_bounds graphS5 2).2)))) = true :=
  claim_C8_static_core_bound graphS5 2 "fcfs" "static" (some 3)
    (by decide) (by decide)

/-- Claim C5 (corrected): with one core the run serializes execution — every
entry runs on core 0 and the same-core windows are disjoint, so the total
dispatched work never exceeds the makespan — but the claimed equality fails:
the single core can idle between periodic releases, as the counterexample on
scenario S5 shows (makespan 7, dispatched work 4). -/
theorem claim_C5_amended (g : Graph) (sp ap : String) (I : Option Int)
    (hex : ExecNonneg g) (hgnd : (g.map Prod.fst).Nodup) :
    (∀ e ∈ (run_main_scheduler g 1 sp ap I).1, e.core = 0)
    ∧ dispatchedWork (run_main_scheduler g 1 sp ap I).1 ≤
        (run_main_scheduler g 1 sp ap I).2.1 := by
  have hinv := runState_inv g 1 sp ap I le_rfl hex hgnd
  have hsched : (run_main_scheduler g 1 sp ap I).1 =
      (runState g 1 sp ap I).schedule := rfl
  have hmk : (run_main_scheduler g 1 sp ap I).2.1 =
      maxFinish ((runState g 1 sp ap I).schedule) := rfl
  have hcore : ∀ e ∈ (runState g 1 sp ap I).schedule, e.core = 0 := by
    intro e he
    have h : e.core < 1 := hinv.sched_core_lt e he
    omega
  rw [hsched, hmk]
  refine ⟨hcore, ?_⟩
  have hfin_ge : ∀ e ∈ (runState g 1 sp ap I).schedule,
      e.start_time ≤ e.finish_time := by
    intro e he
    have h1 := hinv.sched_fin e he
    have h2 : 0 ≤ execOf (mkCtx g 1 sp ap I).g e.runnable :=
      execOf_nonneg _ hex e.runnable
    omega
  have hstart0 := hinv.sched_start0
  have hmaxf : ∀ e ∈ (runState g 1 sp ap I).schedule,
      e.finish_time ≤ maxFinish ((runState g 1 sp ap I).schedule) :=
    fun e he => maxFinish_ge _ e he
  have h0M : 0 ≤ maxFinish ((runState g 1 sp ap I).schedule) := by
    cases hS : (runState g 1 sp ap I).schedule with
    | nil => exact le_refl 0
    | cons e0 rest =>
        have hmem : e0 ∈ (runState g 1 sp ap I).schedule := by
          rw [hS]
          exact List.mem_cons_self _ _
        have h1 := hstart0 e0 hmem
        have h2 := hfin_ge e0 hmem
        have h3 := hmaxf e0 hmem
        rw [hS] at h3
        omega
  have hpin : ∀ p ∈ ((runState g 1 sp ap I).schedule).map
      (fun e => (e.start_time, e.finish_time)),
      0 ≤ p.1 ∧ p.1 ≤ p.2 ∧ p.2 ≤ maxFinish ((runState g 1 sp ap I).schedule) := by
    intro p hp
    rcases List.mem_map.mp hp with ⟨e, he, rfl⟩
    exact ⟨hstart0 e he, hfin_ge e he, hmaxf e he⟩
  have hdisjE : ((runState g 1 sp ap I).schedule).Pairwise
      (fun e1 e2 => ∀ x : Int, ¬ (e1.start_time ≤ x ∧ x < e1.finish_time
        ∧ e2.start_time ≤ x ∧ x < e2.finish_time)) := by
    refine List.Pairwise.imp_of_mem ?_ hinv.disj
    intro e1 e2 h1 h2 h12
    exact h12 (by rw [hcore e1 h1, hcore e2 h2])
  have hdisjP : (((runState g 1 sp ap I).schedule).map
      (fun e => (e.start_time, e.finish_time))).Pairwise
      (fun a b => ∀ x : Int, ¬ (a.1 ≤ x ∧ x < a.2 ∧ b.1 ≤ x ∧ x < b.2)) :=
    List.pairwise_map.mpr hdisjE
  have htot : ∀ a b : Int × Int,
      (fun (a b : Int × Int) => decide (a.1 ≤ b.1)) a b = true ∨
      (fun (a b : Int × Int) => decide (a.1 ≤ b.1)) b a = true := by
    intro a b
    rcases le_total a.1 b.1 with h | h
    · left
      simpa using h
    · right
      simpa using h
  have htrans : ∀ a b c : Int × Int,
      (fun (a b : Int × Int) => decide (a.1 ≤ b.1)) a b = true →
      (fun (a b : Int × Int) => decide (a.1 ≤ b.1)) b c = true →
      (fun (a b : Int × Int) => decide (a.1 ≤ b.1)) a c = true := by
    intro a b c hab hbc
    simp only [decide_eq_true_eq] at hab hbc ⊢
    omega
  have hsorted := sortLe_pairwise (fun (a b : Int × Int) => decide (a.1 ≤ b.1))
    htot htrans (((runState g 1 sp ap I).schedule).map
      (fun e => (e.start_time, e.finish_time)))
  have hsorted2 : (sortLe (fun (a b : Int × Int) => decide (a.1 ≤ b.1))
      (((runState g 1 sp ap I).schedule).map
        (fun e => (e.start_time, e.finish_time)))).Pairwise
      (fun a b => a.1 ≤ b.1) := by
    refine hsorted.imp ?_
    intro a b h
    simpa using h
  have hperm := sortLe_perm (fun (a b : Int × Int) => decide (a.1 ≤ b.1))
    (((runState g 1 sp ap I).schedule).map (fun e => (e.start_time, e.finish_time)))
  have hdisjS : (sortLe (fun (a b : Int × Int) => decide (a.1 ≤ b.1))
      (((runState g 1 sp ap I).schedule).map
        (fun e => (e.start_time, e.finish_time)))).Pairwise
      (fun a b => ∀ x : Int, ¬ (a.1 ≤ x ∧ x < a.2 ∧ b.1 ≤ x ∧ x < b.2)) := by
    refine (List.Perm.pairwise_iff ?_ hperm).mpr hdisjP
    intro a b h x hx
    exact h x ⟨hx.2.2.1, hx.2.2.2, hx.1, hx.2.1⟩
  have hsin : ∀ p ∈ sortLe (fun (a b : Int × Int) => decide (a.1 ≤ b.1))
      (((runState g 1 sp ap I).schedule).map
        (fun e => (e.start_time, e.finish_time))),
      0 ≤ p.1 ∧ p.1 ≤ p.2 ∧ p.2 ≤ maxFinish ((runState g 1 sp ap I).schedule) :=
    fun p hp => hpin p ((mem_sortLe _ _ _).mp hp)
  have hfsum := sum_filter_len (sortLe (fun (a b : Int × Int) => decide (a.1 ≤ b.1))
      (((runState g 1 sp ap I).schedule).map (fun e => (e.start_time, e.finish_time))))
    (by
      intro p hp hnlt
      have h := (hsin p hp).2.1
      omega)
  have hmain := intervals_sum_le
    ((sortLe (fun (a b : Int × Int) => decide (a.1 ≤ b.1))
      (((runState g 1 sp ap I).schedule).map
        (fun e => (e.start_time, e.finish_time)))).filter
      (fun p => decide (p.1 < p.2)))
    (maxFinish ((runState g 1 sp ap I).schedule)) 0 h0M
    (by
      intro p hp
      have h1 := hsin p (List.mem_of_mem_filter hp)
      have h2 := List.of_mem_filter hp
      simp only [decide_eq_true_eq] at h2
      exact ⟨h1.1, h2, h1.2.2⟩)
    (List.Pairwise.sublist (List.filter_sublist _) hsorted2)
    (List.Pairwise.sublist (List.filter_sublist _) hdisjS)
  have hpermsum : ((sortLe (fun (a b : Int × Int) => decide (a.1 ≤ b.1))
      (((runState g 1 sp ap I).schedule).map
        (fun e => (e.start_time, e.finish_time)))).map (fun p => p.2 - p.1)).sum =
      ((((runState g 1 sp ap I).schedule).map
        (fun e => (e.start_time, e.finish_time))).map (fun p => p.2 - p.1)).sum :=
    (hperm.map (fun p => p.2 - p.1)).sum_eq
  have hdw : dispatchedWork ((runState g 1 sp ap I).schedule) =
      ((((runState g 1 sp ap I).schedule).map
        (fun e => (e.start_time, e.finish_time))).map (fun p => p.2 - p.1)).sum := by
    unfold dispatchedWork
    rw [List.map_map]
    rfl
  rw [hdw, ← hpermsum, ← hfsum]
  omega

/-- Witness for the amended C5 at a concrete input. -/
theorem claim_C5_amended_witness :
    (∀ e ∈ (run_main_scheduler graphS5 1 "fcfs" "dynamic" (some 3)).1, e.core = 0)
    ∧ dispatchedWork (run_main_scheduler graphS5 1 "fcfs" "dynamic" (some 3)).1 ≤
        (run_main_scheduler graphS5 1 "fcfs" "dynamic" (some 3)).2.1 :=
  claim_C5_amended graphS5 "fcfs" "dynamic" (some 3)
    (by unfold ExecNonneg; decide) (by decide)

/-- Claim C4 (amended): under PAS with ample admissible cores at a decision
point, (i) among the event-typed eligible runnables, no event is dispatched
while a strictly higher-priority eligible event is left both undispatched and
undeferred; and (ii) when every eligible event's dispatch also fits within the
horizon, every eligible runnable not deferred by the periodic-protection rule
— periodic or event — is dispatched, so no priority inversion of any kind
occurs among undeferred runnables.  The only inversion escapes are thus the
protection-rule deferral (which the counterexample exhibits) and the horizon
cutoff, which stops the event loop and can leave an undeferred high-priority
event undispatched while a lower-priority periodic dispatches. -/
theorem claim_C4_amended (g : Graph) (num_cores : Nat) (ap : String)
    (I : Option Int) (hnc : 1 ≤ num_cores) (hex : ExecNonneg g)
    (hgnd : (g.map Prod.fst).Nodup) :
    pasAmpleRespectsPriorityAmended g num_cores ap I := by
  intro dp hdp
  rcases loop_log (mkCtx g num_cores "pas" ap I) (fuelOf g I) _
    (initState_inv _ hnc hgnd) hnc hex hgnd rfl dp hdp with h | h
  · exact absurd h (List.not_mem_nil dp)
  · exact h

/-- Witness for the amended C4 at the counterexample's own input. -/
theorem claim_C4_amended_witness :
    pasAmpleRespectsPriorityAmended graphPrioInv 3 "dynamic" (some 2) :=
  claim_C4_amended graphPrioInv 3 "dynamic" (some 2) (by decide)
    (by unfold ExecNonneg; decide) (by decide)

end RunnableToCore
